import Mathlib

set_option maxHeartbeats 1000000

/-!
# Verification of the expense tracker CLI (src/expense_tracker.py)

The Python program keeps a global dict `expenses : {int: record}` and an
integer `expense_counter`, persists them as a JSON object, validates user
input, and produces reports (view, filter, totals, periodic summaries).

Shallow embedding conventions:
* Python dicts become insertion-ordered association lists with unique keys
  (`alistSet` models `d[k] = v`, `alistUpsert` models `defaultdict` updates,
  `alistErase` models `del d[k]`).
* Python floats become exact rationals `ℚ` (the claims only involve decimal
  literals and sums, where Python float printing round-trips exactly; the
  special values inf/nan and underscore literals are outside the model).
* String-processing builtins (`strip`, `lower`, `title`, `isdigit`, `int()`,
  `float()`) are modelled for ASCII text; non-ASCII case folding and Unicode
  digits are outside the model.
* Fallible code returns `Option` or an explicit outcome inductive; a Python
  exception that the source does not catch becomes an explicit `crash` value.
-/

namespace Expense

/-! ## Characters and digit strings -/

/-- ASCII digit test; models the characters accepted by `int()` digits and by
`str.isdigit` on ASCII input. -/
def isDig (c : Char) : Bool := 48 ≤ c.toNat && c.toNat ≤ 57

/-- Python whitespace (ASCII fragment) recognised by `str.strip()` and by the
implicit stripping of `int()`. -/
def isPySpace (c : Char) : Bool :=
  c == ' ' || c == '\t' || c == '\n' || c == '\r' || c == '\x0b' || c == '\x0c'

def stripWS (cs : List Char) : List Char :=
  ((cs.dropWhile isPySpace).reverse.dropWhile isPySpace).reverse

/-- Models `str.strip()` (ASCII whitespace fragment). -/
def pyStrip (s : String) : String := ⟨stripWS s.data⟩

/-- Character for a single decimal digit. -/
def digitChar (d : Nat) : Char :=
  match d with
  | 0 => '0' | 1 => '1' | 2 => '2' | 3 => '3' | 4 => '4'
  | 5 => '5' | 6 => '6' | 7 => '7' | 8 => '8' | _ => '9'

/-- Numeric value of a big-endian list of digit characters. -/
def digVal (cs : List Char) : Nat := cs.foldl (fun a c => 10 * a + (c.toNat - 48)) 0

/-- Zero-padded big-endian rendering of `n` on exactly `l` digit characters
(truncates `n` modulo `10 ^ l`). -/
def padDigits : Nat → Nat → List Char
  | 0, _ => []
  | l + 1, n => padDigits l (n / 10) ++ [digitChar (n % 10)]

/-- Decimal digit characters of a natural number, as printed by Python
`str`. -/
def natDigitChars (n : Nat) : List Char :=
  if n = 0 then ['0'] else ((Nat.digits 10 n).map digitChar).reverse

/-- Models Python `str` on an int. -/
def intToString (i : Int) : String :=
  if i < 0 then ⟨'-' :: natDigitChars i.natAbs⟩ else ⟨natDigitChars i.natAbs⟩

/-- Models `str.isdigit` (ASCII): nonempty and all digit characters. -/
def pyIsdigit (s : String) : Bool := !s.data.isEmpty && s.data.all isDig

def pyUIntCore (cs : List Char) : Option Nat :=
  if !cs.isEmpty && cs.all isDig then some (digVal cs) else none

def pyIntCore : List Char → Option Int
  | [] => none
  | c :: rest =>
    if c = '-' then (pyUIntCore rest).map (fun n => -(Int.ofNat n))
    else if c = '+' then (pyUIntCore rest).map Int.ofNat
    else (pyUIntCore (c :: rest)).map Int.ofNat

/-- Models Python `int(s)` for decimal strings: optional surrounding
whitespace, optional sign, at least one digit.  (Underscore separators and
non-ASCII digits are outside the model.) -/
def pyInt? (s : String) : Option Int := pyIntCore (stripWS s.data)

/-! ### Digit-string lemmas -/

theorem digitChar_toNat {d : Nat} (h : d < 10) : (digitChar d).toNat = 48 + d := by
  interval_cases d <;> rfl

theorem isDig_digitChar {d : Nat} (h : d < 10) : isDig (digitChar d) = true := by
  interval_cases d <;> rfl

theorem digitChar_ne_dash {d : Nat} (h : d < 10) : digitChar d ≠ '-' := by
  interval_cases d <;> decide

theorem isDig_bounds {c : Char} (h : isDig c = true) : 48 ≤ c.toNat ∧ c.toNat ≤ 57 := by
  simpa [isDig, Bool.and_eq_true, decide_eq_true_eq] using h

theorem digitChar_eq_of_isDig {c : Char} (h : isDig c = true) :
    digitChar (c.toNat - 48) = c := by
  obtain ⟨hl, hr⟩ := isDig_bounds h
  have hc : c = Char.ofNat c.toNat := (Char.ofNat_toNat c).symm
  have hdis : c.toNat = 48 ∨ c.toNat = 49 ∨ c.toNat = 50 ∨ c.toNat = 51 ∨ c.toNat = 52 ∨
      c.toNat = 53 ∨ c.toNat = 54 ∨ c.toNat = 55 ∨ c.toNat = 56 ∨ c.toNat = 57 := by omega
  rcases hdis with h2 | h2 | h2 | h2 | h2 | h2 | h2 | h2 | h2 | h2 <;>
    (rw [h2] at hc; subst hc; rfl)

theorem digVal_append (cs : List Char) (c : Char) :
    digVal (cs ++ [c]) = 10 * digVal cs + (c.toNat - 48) := by
  simp [digVal, List.foldl_append]

theorem digVal_lt (cs : List Char) (h : ∀ c ∈ cs, isDig c = true) :
    digVal cs < 10 ^ cs.length := by
  induction cs using List.reverseRecOn with
  | nil => simp [digVal]
  | append_singleton xs c ih =>
    have hc := isDig_bounds (h c (by simp))
    have hih := ih (fun x hx => h x (by simp [hx]))
    have hlen : (xs ++ [c]).length = xs.length + 1 := by simp
    rw [digVal_append, hlen, pow_succ]
    omega

theorem padDigits_length (l n : Nat) : (padDigits l n).length = l := by
  induction l generalizing n with
  | zero => rfl
  | succ l ih => simp [padDigits, ih]

theorem padDigits_all_dig (l n : Nat) : ∀ c ∈ padDigits l n, isDig c = true := by
  induction l generalizing n with
  | zero => simp [padDigits]
  | succ l ih =>
    intro c hc
    simp only [padDigits, List.mem_append, List.mem_singleton] at hc
    rcases hc with hc | hc
    · exact ih _ c hc
    · subst hc; exact isDig_digitChar (Nat.mod_lt _ (by omega))

theorem padDigits_digVal (cs : List Char) (h : ∀ c ∈ cs, isDig c = true) :
    padDigits cs.length (digVal cs) = cs := by
  induction cs using List.reverseRecOn with
  | nil => rfl
  | append_singleton xs c ih =>
    have hc : isDig c = true := h c (by simp)
    have hxs : ∀ x ∈ xs, isDig x = true := fun x hx => h x (by simp [hx])
    have h48 := isDig_bounds hc
    have hlen : (xs ++ [c]).length = xs.length + 1 := by simp
    rw [digVal_append, hlen, padDigits]
    have hdiv : (10 * digVal xs + (c.toNat - 48)) / 10 = digVal xs := by omega
    have hmod : (10 * digVal xs + (c.toNat - 48)) % 10 = c.toNat - 48 := by omega
    rw [hdiv, hmod, ih hxs, digitChar_eq_of_isDig hc]

theorem digVal_padDigits (l n : Nat) (h : n < 10 ^ l) : digVal (padDigits l n) = n := by
  induction l generalizing n with
  | zero => simp at h; simp [h, padDigits, digVal]
  | succ l ih =>
    rw [padDigits, digVal_append]
    have hlt : n / 10 < 10 ^ l := by
      rw [pow_succ] at h
      omega
    rw [ih _ hlt, digitChar_toNat (Nat.mod_lt _ (by omega))]
    omega

theorem digVal_reverse_map (ds : List Nat) (h : ∀ d ∈ ds, d < 10) :
    digVal ((ds.map digitChar).reverse) = Nat.ofDigits 10 ds := by
  induction ds with
  | nil => rfl
  | cons d rest ih =>
    simp only [List.map_cons, List.reverse_cons]
    rw [digVal_append, ih (fun x hx => h x (by simp [hx])),
      digitChar_toNat (h d (by simp)), Nat.ofDigits_cons]
    omega

theorem digVal_natDigitChars (n : Nat) : digVal (natDigitChars n) = n := by
  unfold natDigitChars
  by_cases h : n = 0
  · simp [h, digVal]
  · rw [if_neg h, digVal_reverse_map _ (fun d hd => Nat.digits_lt_base (by omega) hd),
      Nat.ofDigits_digits]

theorem natDigitChars_ne_nil (n : Nat) : natDigitChars n ≠ [] := by
  unfold natDigitChars
  by_cases h : n = 0
  · simp [h]
  · rw [if_neg h]
    simp [Nat.digits_ne_nil_iff_ne_zero, h]

theorem natDigitChars_all_dig (n : Nat) : ∀ c ∈ natDigitChars n, isDig c = true := by
  unfold natDigitChars
  by_cases h : n = 0
  · simp [h]; rfl
  · rw [if_neg h]
    intro c hc
    simp only [List.mem_reverse, List.mem_map] at hc
    obtain ⟨d, hd, rfl⟩ := hc
    exact isDig_digitChar (Nat.digits_lt_base (by omega) hd)

theorem dropWhile_eq_self_of_all {p : Char → Bool} :
    ∀ cs : List Char, (∀ c ∈ cs, p c = false) → cs.dropWhile p = cs
  | [], _ => rfl
  | c :: cs, h => by
    rw [List.dropWhile_cons]
    simp [h c (by simp)]

theorem stripWS_of_no_space (cs : List Char) (h : ∀ c ∈ cs, isPySpace c = false) :
    stripWS cs = cs := by
  unfold stripWS
  rw [dropWhile_eq_self_of_all _ h, dropWhile_eq_self_of_all, List.reverse_reverse]
  intro c hc
  exact h c (by simpa using hc)

theorem isPySpace_of_isDig {c : Char} (h : isDig c = true) : isPySpace c = false := by
  by_contra hcon
  rw [Bool.not_eq_false] at hcon
  simp only [isPySpace, Bool.or_eq_true, beq_iff_eq] at hcon
  rcases hcon with ((((rfl | rfl) | rfl) | rfl) | rfl) | rfl <;> exact absurd h (by decide)

theorem isEmptyFalse_of_ne_nil {α : Type} {l : List α} (h : l ≠ []) : l.isEmpty = false := by
  cases l with
  | nil => exact absurd rfl h
  | cons a l => rfl

theorem not_isEmpty_of_ne_nil {α : Type} {l : List α} (h : l ≠ []) :
    ¬ (l.isEmpty = true) := by
  rw [isEmptyFalse_of_ne_nil h]
  simp

theorem nil_of_isEmpty {α : Type} {l : List α} (h : l.isEmpty = true) : l = [] := by
  cases l with
  | nil => rfl
  | cons a l => exact absurd h (by simp)

theorem pyUIntCore_natDigitChars (n : Nat) :
    pyUIntCore (natDigitChars n) = some n := by
  unfold pyUIntCore
  rw [if_pos, digVal_natDigitChars]
  rw [Bool.and_eq_true, isEmptyFalse_of_ne_nil (natDigitChars_ne_nil n)]
  exact ⟨rfl, List.all_eq_true.mpr (fun c hc => natDigitChars_all_dig n c hc)⟩

theorem pyInt?_intToString (i : Int) : pyInt? (intToString i) = some i := by
  have hdigs := natDigitChars_all_dig i.natAbs
  have hne := natDigitChars_ne_nil i.natAbs
  unfold pyInt? intToString
  by_cases hneg : i < 0
  · rw [if_pos hneg]
    show pyIntCore (stripWS ('-' :: natDigitChars i.natAbs)) = some i
    have hns : ∀ c ∈ '-' :: natDigitChars i.natAbs, isPySpace c = false := by
      intro c hc
      rcases List.mem_cons.mp hc with rfl | hc
      · rfl
      · exact isPySpace_of_isDig (hdigs c hc)
    rw [stripWS_of_no_space _ hns]
    simp only [pyIntCore, if_pos, pyUIntCore_natDigitChars]
    show some (-(i.natAbs : Int)) = some i
    congr 1
    omega
  · rw [if_neg hneg]
    show pyIntCore (stripWS (natDigitChars i.natAbs)) = some i
    rw [stripWS_of_no_space _ (fun c hc => isPySpace_of_isDig (hdigs c hc))]
    cases hcs : natDigitChars i.natAbs with
    | nil => exact absurd hcs hne
    | cons c rest =>
      have hc : isDig c = true := hdigs c (by simp [hcs])
      have hcd : c ≠ '-' ∧ c ≠ '+' := by
        constructor <;> (intro he; rw [he] at hc; exact absurd hc (by decide))
      simp only [pyIntCore]
      rw [if_neg hcd.1, if_neg hcd.2, ← hcs, pyUIntCore_natDigitChars]
      show some ((i.natAbs : Int)) = some i
      congr 1
      omega

/-! ## Proleptic Gregorian calendar

Python's `datetime` uses the proleptic Gregorian calendar with years 1..9999.
`toordinal` below is `date.toordinal`: day 1 is 0001-01-01 (a Monday, which is
why `date.weekday()` is `(toordinal - 1) % 7` with Monday = 0). -/

/-- Gregorian leap year test (as implemented by `datetime`). -/
def isLeap (y : Nat) : Bool := decide (y % 4 = 0 ∧ (y % 100 ≠ 0 ∨ y % 400 = 0))

def daysInMonth (y : Nat) : Nat → Nat
  | 1 => 31 | 2 => if isLeap y then 29 else 28 | 3 => 31 | 4 => 30
  | 5 => 31 | 6 => 30 | 7 => 31 | 8 => 31 | 9 => 30 | 10 => 31
  | 11 => 30 | 12 => 31 | _ => 0

/-- Days in year `y` strictly before the first of month `m`. -/
def daysBeforeMonth (y m : Nat) : Nat :=
  (match m with
   | 1 => 0 | 2 => 31 | 3 => 59 | 4 => 90 | 5 => 120 | 6 => 151 | 7 => 181
   | 8 => 212 | 9 => 243 | 10 => 273 | 11 => 304 | 12 => 334 | _ => 335) +
  (if 3 ≤ m ∧ isLeap y = true then 1 else 0)

/-- Leap days among the years 1 .. y-1. -/
def leapsBefore (y : Nat) : Nat := (y - 1) / 4 + (y - 1) / 400 - (y - 1) / 100

/-- Python `date(y, m, d).toordinal()`: 0001-01-01 is day 1. -/
def toordinal (y m d : Nat) : Nat := 365 * (y - 1) + leapsBefore y + daysBeforeMonth y m + d

def jan1 (y : Nat) : Nat := toordinal y 1 1

/-- Python `date.weekday()` of ordinal day `n`: Monday = 0. -/
def weekday (n : Nat) : Nat := (n - 1) % 7

/-- Ordinal of the Monday of `n`'s week: models `date - timedelta(days=date.weekday())`. -/
def week_start (n : Nat) : Nat := n - weekday n

/-- Calendar validity as enforced by `datetime` (year range 1..9999). -/
def ValidYMD (y m d : Nat) : Prop :=
  1 ≤ y ∧ y ≤ 9999 ∧ 1 ≤ m ∧ m ≤ 12 ∧ 1 ≤ d ∧ d ≤ daysInMonth y m

instance : ∀ y m d, Decidable (ValidYMD y m d) := fun y m d => by
  unfold ValidYMD; infer_instance

def yearLen (y : Nat) : Nat := if isLeap y then 366 else 365

theorem daysInMonth_le (y m : Nat) : daysInMonth y m ≤ 31 := by
  unfold daysInMonth
  split <;> first | omega | (split <;> omega)

theorem daysBeforeMonth_succ (y m : Nat) (h1 : 1 ≤ m) (h2 : m ≤ 11) :
    daysBeforeMonth y (m + 1) = daysBeforeMonth y m + daysInMonth y m := by
  interval_cases m <;>
    (unfold daysBeforeMonth daysInMonth; cases h : isLeap y <;> simp [h] <;> omega)

theorem daysBeforeMonth_mono (y : Nat) {m m' : Nat} (h1 : 1 ≤ m) (hm : m ≤ m')
    (h2 : m' ≤ 12) : daysBeforeMonth y m ≤ daysBeforeMonth y m' := by
  induction m' , hm using Nat.le_induction with
  | base => exact le_refl _
  | succ k hk ih =>
    have hk12 : k ≤ 11 := by omega
    calc daysBeforeMonth y m ≤ daysBeforeMonth y k := ih (by omega)
      _ ≤ daysBeforeMonth y k + daysInMonth y k := Nat.le_add_right _ _
      _ = daysBeforeMonth y (k + 1) := (daysBeforeMonth_succ y k (by omega) hk12).symm

theorem daysBeforeMonth_add_le (y m : Nat) (h1 : 1 ≤ m) (h2 : m ≤ 12) :
    daysBeforeMonth y m + daysInMonth y m ≤ yearLen y := by
  unfold yearLen
  interval_cases m <;>
    (unfold daysBeforeMonth daysInMonth; cases h : isLeap y <;> simp [h] <;> omega)

theorem jan1_eq (z : Nat) : jan1 z = 365 * (z - 1) + leapsBefore z + 1 := by
  unfold jan1 toordinal
  have h : daysBeforeMonth z 1 = 0 := by
    unfold daysBeforeMonth
    norm_num
  omega

theorem isLeap_true_of {y : Nat} (h4 : y % 4 = 0) (h : y % 100 ≠ 0 ∨ y % 400 = 0) :
    isLeap y = true := by
  unfold isLeap
  simp only [decide_eq_true_eq]
  exact ⟨h4, h⟩

theorem isLeap_false_of {y : Nat} (h : y % 4 ≠ 0 ∨ (y % 100 = 0 ∧ y % 400 ≠ 0)) :
    isLeap y = false := by
  unfold isLeap
  simp only [decide_eq_false_iff_not, not_and, not_or]
  rcases h with h | ⟨h1, h2⟩
  · intro hc; exact absurd hc h
  · intro _; exact ⟨fun hc => absurd h1 hc, h2⟩

theorem jan1_succ (y : Nat) (hy : 1 ≤ y) : jan1 (y + 1) = jan1 y + yearLen y := by
  have hs : y - 1 + 1 = y := by omega
  have h4 : y / 4 = (y - 1) / 4 + if 4 ∣ y then 1 else 0 := by
    have := Nat.succ_div (y - 1) 4
    rwa [hs] at this
  have h100 : y / 100 = (y - 1) / 100 + if 100 ∣ y then 1 else 0 := by
    have := Nat.succ_div (y - 1) 100
    rwa [hs] at this
  have h400 : y / 400 = (y - 1) / 400 + if 400 ∣ y then 1 else 0 := by
    have := Nat.succ_div (y - 1) 400
    rwa [hs] at this
  have hd100of400 : 400 ∣ y → 100 ∣ y := fun h => dvd_trans (by norm_num) h
  have hd4of100 : 100 ∣ y → 4 ∣ y := fun h => dvd_trans (by norm_num) h
  have hdivle : (y - 1) / 100 ≤ (y - 1) / 4 := Nat.div_le_div_left (by norm_num) (by norm_num)
  rw [jan1_eq, jan1_eq]
  unfold leapsBefore
  have hyz : y + 1 - 1 = y := by omega
  rw [hyz]
  by_cases hd4 : 4 ∣ y
  · by_cases hd100 : 100 ∣ y
    · by_cases hd400 : 400 ∣ y
      · rw [if_pos hd4] at h4; rw [if_pos hd100] at h100; rw [if_pos hd400] at h400
        have hyl : yearLen y = 366 := by
          unfold yearLen
          rw [isLeap_true_of (by omega) (Or.inr (by omega))]
          rfl
        rw [hyl]
        omega
      · rw [if_pos hd4] at h4; rw [if_pos hd100] at h100; rw [if_neg hd400] at h400
        have hyl : yearLen y = 365 := by
          unfold yearLen
          rw [isLeap_false_of (Or.inr ⟨by omega, by omega⟩)]
          rfl
        rw [hyl]
        omega
    · have hd400 : ¬ 400 ∣ y := fun hc => hd100 (hd100of400 hc)
      rw [if_pos hd4] at h4; rw [if_neg hd100] at h100; rw [if_neg hd400] at h400
      have hyl : yearLen y = 366 := by
        unfold yearLen
        rw [isLeap_true_of (by omega) (Or.inl (by omega))]
        rfl
      rw [hyl]
      omega
  · have hd100 : ¬ 100 ∣ y := fun hc => hd4 (hd4of100 hc)
    have hd400 : ¬ 400 ∣ y := fun hc => hd100 (hd100of400 hc)
    rw [if_neg hd4] at h4; rw [if_neg hd100] at h100; rw [if_neg hd400] at h400
    have hyl : yearLen y = 365 := by
      unfold yearLen
      rw [isLeap_false_of (Or.inl (by omega))]
      rfl
    rw [hyl]
    omega

theorem yearLen_ge (y : Nat) : 365 ≤ yearLen y := by
  unfold yearLen; split <;> omega

theorem jan1_mono {a b : Nat} (h1 : 1 ≤ a) (h : a ≤ b) : jan1 a ≤ jan1 b := by
  induction b, h using Nat.le_induction with
  | base => exact le_refl _
  | succ k hk ih =>
    have := jan1_succ k (by omega)
    have := yearLen_ge k
    omega

theorem jan1_strict_mono {a b : Nat} (h1 : 1 ≤ a) (h : a < b) : jan1 a + 365 ≤ jan1 b := by
  have h2 : jan1 (a + 1) ≤ jan1 b := jan1_mono (by omega) h
  have := jan1_succ a h1
  have := yearLen_ge a
  omega

theorem jan1_le_toordinal (y m d : Nat) (h : ValidYMD y m d) : jan1 y ≤ toordinal y m d := by
  obtain ⟨h1, h2, h3, h4, h5, h6⟩ := h
  unfold jan1 toordinal
  have : daysBeforeMonth y 1 = 0 := rfl
  have := daysBeforeMonth_mono y (le_refl 1) h3 h4
  omega

theorem toordinal_lt_jan1_succ (y m d : Nat) (h : ValidYMD y m d) :
    toordinal y m d < jan1 (y + 1) := by
  obtain ⟨h1, h2, h3, h4, h5, h6⟩ := h
  have hle := daysBeforeMonth_add_le y m h3 h4
  have := jan1_succ y h1
  unfold toordinal at *
  unfold jan1 toordinal at *
  have : daysBeforeMonth y 1 = 0 := rfl
  omega

theorem toordinal_pos (y m d : Nat) (h5 : 1 ≤ d) : 1 ≤ toordinal y m d := by
  unfold toordinal; omega

/-- Strict monotonicity of `toordinal` with respect to the lexicographic
(chronological) order on valid dates. -/
theorem toordinal_lt_of_lex {y1 m1 d1 y2 m2 d2 : Nat}
    (hv1 : ValidYMD y1 m1 d1) (hv2 : ValidYMD y2 m2 d2)
    (h : y1 < y2 ∨ (y1 = y2 ∧ m1 < m2) ∨ (y1 = y2 ∧ m1 = m2 ∧ d1 < d2)) :
    toordinal y1 m1 d1 < toordinal y2 m2 d2 := by
  obtain ⟨a1, a2, a3, a4, a5, a6⟩ := hv1
  obtain ⟨b1, b2, b3, b4, b5, b6⟩ := hv2
  rcases h with h | ⟨rfl, h⟩ | ⟨rfl, rfl, h⟩
  · have hx := toordinal_lt_jan1_succ y1 m1 d1 ⟨a1, a2, a3, a4, a5, a6⟩
    have hy := jan1_le_toordinal y2 m2 d2 ⟨b1, b2, b3, b4, b5, b6⟩
    have := jan1_mono (show 1 ≤ y1 + 1 by omega) (show y1 + 1 ≤ y2 by omega)
    omega
  · have hstep := daysBeforeMonth_succ y1 m1 a3 (by omega)
    have hmono := daysBeforeMonth_mono y1 (show 1 ≤ m1 + 1 by omega) (show m1 + 1 ≤ m2 by omega) b4
    unfold toordinal
    omega
  · unfold toordinal
    omega

theorem week_start_le (n : Nat) : week_start n ≤ n := by
  unfold week_start; omega

theorem week_start_ge (n : Nat) (h : 1 ≤ n) : n ≤ week_start n + 6 := by
  unfold week_start weekday; omega

theorem week_start_pos (n : Nat) (h : 1 ≤ n) : 1 ≤ week_start n := by
  unfold week_start weekday; omega

theorem week_start_form (n : Nat) (h : 1 ≤ n) : week_start n = 7 * ((n - 1) / 7) + 1 := by
  unfold week_start weekday; omega

theorem week_start_mono {a b : Nat} (h1 : 1 ≤ a) (h : a ≤ b) : week_start a ≤ week_start b := by
  rw [week_start_form a h1, week_start_form b (by omega)]
  have : (a - 1) / 7 ≤ (b - 1) / 7 := Nat.div_le_div_right (by omega)
  omega

theorem week_start_step {a b : Nat} (h1 : 1 ≤ a) (hab : a ≤ b)
    (h : week_start a < week_start b) : week_start a + 7 ≤ week_start b := by
  rw [week_start_form a h1, week_start_form b (by omega)] at *
  omega

/-- Calendar year containing the Monday that starts the week of `(y, m, d)`.
The Monday is at most 6 days before the date, so it lies in year `y` unless
it falls before January 1 of `y`, in which case it lies in year `y - 1`. -/
def weekYear (y m d : Nat) : Nat :=
  if week_start (toordinal y m d) < jan1 y then y - 1 else y

/-- Numeric content of the weekly grouping key
`week_start.strftime('%Y-W%U')` from `generate_expense_summary`: the pair
(year of the week's Monday, `%U` week number of that Monday).  `%U` of a day
is `(yday + 7 - wday) / 7` with 0-based day-of-year and Sunday-based weekday
(glibc rule); for a Monday `wday = 1`, giving `(yday0 + 6) / 7`. -/
def weekKeyOf (y m d : Nat) : Nat × Nat :=
  (weekYear y m d,
   (week_start (toordinal y m d) - jan1 (weekYear y m d) + 6) / 7)

theorem weekYear_bracket (y m d : Nat) (h : ValidYMD y m d) :
    1 ≤ weekYear y m d ∧ jan1 (weekYear y m d) ≤ week_start (toordinal y m d) ∧
    week_start (toordinal y m d) < jan1 (weekYear y m d + 1) := by
  obtain ⟨h1, h2, h3, h4, h5, h6⟩ := h
  have htpos : 1 ≤ toordinal y m d := toordinal_pos y m d h5
  have hws_le := week_start_le (toordinal y m d)
  have hws_ge := week_start_ge (toordinal y m d) htpos
  have hlow := jan1_le_toordinal y m d ⟨h1, h2, h3, h4, h5, h6⟩
  have hhigh := toordinal_lt_jan1_succ y m d ⟨h1, h2, h3, h4, h5, h6⟩
  unfold weekYear
  by_cases hc : week_start (toordinal y m d) < jan1 y
  · rw [if_pos hc]
    have hy2 : 2 ≤ y := by
      by_contra hy1
      have hy : y = 1 := by omega
      subst hy
      have hj : jan1 1 = 1 := rfl
      have := week_start_pos (toordinal 1 m d) htpos
      omega
    have hseq : y - 1 + 1 = y := by omega
    have hstep := jan1_succ (y - 1) (by omega)
    rw [hseq] at hstep
    have hyl := yearLen_ge (y - 1)
    refine ⟨by omega, by omega, by rw [hseq]; exact hc⟩
  · rw [if_neg hc]
    exact ⟨h1, by omega, by omega⟩

theorem year_bracket_unique {a b x : Nat} (ha1 : 1 ≤ a) (hb1 : 1 ≤ b)
    (ha2 : jan1 a ≤ x) (ha3 : x < jan1 (a + 1))
    (hb2 : jan1 b ≤ x) (hb3 : x < jan1 (b + 1)) : a = b := by
  by_contra hne
  rcases Nat.lt_or_ge a b with h | h
  · have hab : a + 1 ≤ b := by omega
    have := jan1_mono (show 1 ≤ a + 1 by omega) hab
    omega
  · have hlt : b < a := by omega
    have hab : b + 1 ≤ a := by omega
    have := jan1_mono (show 1 ≤ b + 1 by omega) hab
    omega

/-- Chronological faithfulness of the weekly keys: of two dates in different
weeks, the later date gets the lexicographically larger (year, week) key.
This is what makes the reverse-sorted weekly summary most-recent-first. -/
theorem weekKey_lt_of_lt {y1 m1 d1 y2 m2 d2 : Nat}
    (hv1 : ValidYMD y1 m1 d1) (hv2 : ValidYMD y2 m2 d2)
    (ht : toordinal y1 m1 d1 < toordinal y2 m2 d2)
    (hne : weekKeyOf y1 m1 d1 ≠ weekKeyOf y2 m2 d2) :
    (weekKeyOf y1 m1 d1).1 < (weekKeyOf y2 m2 d2).1 ∨
    ((weekKeyOf y1 m1 d1).1 = (weekKeyOf y2 m2 d2).1 ∧
     (weekKeyOf y1 m1 d1).2 < (weekKeyOf y2 m2 d2).2) := by
  obtain ⟨hb1a, hb1b, hb1c⟩ := weekYear_bracket y1 m1 d1 hv1
  obtain ⟨hb2a, hb2b, hb2c⟩ := weekYear_bracket y2 m2 d2 hv2
  have ht1pos : 1 ≤ toordinal y1 m1 d1 := toordinal_pos y1 m1 d1 hv1.2.2.2.2.1
  have hwmono : week_start (toordinal y1 m1 d1) ≤ week_start (toordinal y2 m2 d2) :=
    week_start_mono ht1pos (le_of_lt ht)
  have hfst1 : (weekKeyOf y1 m1 d1).1 = weekYear y1 m1 d1 := rfl
  have hfst2 : (weekKeyOf y2 m2 d2).1 = weekYear y2 m2 d2 := rfl
  have hsnd1 : (weekKeyOf y1 m1 d1).2 =
      (week_start (toordinal y1 m1 d1) - jan1 (weekYear y1 m1 d1) + 6) / 7 := rfl
  have hsnd2 : (weekKeyOf y2 m2 d2).2 =
      (week_start (toordinal y2 m2 d2) - jan1 (weekYear y2 m2 d2) + 6) / 7 := rfl
  rcases Nat.eq_or_lt_of_le hwmono with heq | hlt
  · exfalso
    have hab : weekYear y1 m1 d1 = weekYear y2 m2 d2 :=
      year_bracket_unique hb1a hb2a hb1b hb1c (by omega) (by omega)
    apply hne
    rw [Prod.ext_iff]
    constructor
    · rw [hfst1, hfst2, hab]
    · rw [hsnd1, hsnd2, hab, heq]
  · have hstep : week_start (toordinal y1 m1 d1) + 7 ≤ week_start (toordinal y2 m2 d2) :=
      week_start_step ht1pos (le_of_lt ht) hlt
    rcases Nat.lt_trichotomy (weekYear y1 m1 d1) (weekYear y2 m2 d2) with h | h | h
    · left
      rw [hfst1, hfst2]
      exact h
    · right
      refine ⟨by rw [hfst1, hfst2, h], ?_⟩
      rw [hsnd1, hsnd2, ← h]
      omega
    · exfalso
      have hab : weekYear y2 m2 d2 + 1 ≤ weekYear y1 m1 d1 := by omega
      have := jan1_mono (show 1 ≤ weekYear y2 m2 d2 + 1 by omega) hab
      omega

/-! ## Parsing dates: `datetime.strptime(s, '%Y-%m-%d')`

CPython's `strptime` matches `%Y` with exactly four digits, `%m` with
`1[0-2]|0[1-9]|[1-9]` (one or two digits, value 1..12, zero-padding
optional), `%d` with `3[01]|[12]\d|0[1-9]|[1-9]`, requires the whole string
to be consumed, and finally `datetime(y, m, d)` checks year ≥ 1 and that the
day exists in the month.  Because the separators are literal dashes and no
token can contain a dash, matching the whole pattern is equivalent to
splitting on dashes into exactly three all-digit groups of widths 4 / 1-2 /
1-2 and range-checking the values: every two-digit group the regex rejects
(`00`, `13`..`99` for `%m`; `00`, `32`..`99` for `%d`) is also rejected by
the range check, and vice versa. -/

/-- Models Python `str.split('-')`: the recursive call is never empty, so
prepending a non-dash character extends the first group. -/
def splitDash : List Char → List (List Char)
  | [] => [[]]
  | c :: rest =>
    let ps := splitDash rest
    if c = '-' then [] :: ps
    else (c :: ps.headD []) :: ps.tail

/-- Group-wise checks of `strptime('%Y-%m-%d')` once the string is split at
the dashes: widths 4 / 1-2 / 1-2 of digits, then `datetime`'s range check. -/
def parseYMD3 (py pm pd : List Char) : Option (Nat × Nat × Nat) :=
  if py.length = 4 ∧ py.all isDig = true ∧
     1 ≤ pm.length ∧ pm.length ≤ 2 ∧ pm.all isDig = true ∧
     1 ≤ pd.length ∧ pd.length ≤ 2 ∧ pd.all isDig = true then
    if 1 ≤ digVal py ∧ 1 ≤ digVal pm ∧ digVal pm ≤ 12 ∧ 1 ≤ digVal pd ∧
       digVal pd ≤ daysInMonth (digVal py) (digVal pm) then
      some (digVal py, digVal pm, digVal pd)
    else none
  else none

/-- Models `datetime.strptime(s, '%Y-%m-%d')`, returning the parsed
(year, month, day) triple on success. -/
def parseYMD? (cs : List Char) : Option (Nat × Nat × Nat) :=
  match splitDash cs with
  | [py, pm, pd] => parseYMD3 py pm pd
  | _ => none

/-- Source `validate_date`: true iff `strptime(date_string, '%Y-%m-%d')`
does not raise. -/
def validate_date (date_string : String) : Bool :=
  (parseYMD? date_string.data).isSome

theorem splitDash_cons_dash (rest : List Char) :
    splitDash ('-' :: rest) = [] :: splitDash rest := by
  conv_lhs => unfold splitDash
  rfl

theorem splitDash_cons_ne {c : Char} (rest : List Char) (hc : c ≠ '-') :
    splitDash (c :: rest) =
      (c :: (splitDash rest).headD []) :: (splitDash rest).tail := by
  conv_lhs => unfold splitDash
  rw [if_neg hc]

theorem splitDash_ne_nil (cs : List Char) : splitDash cs ≠ [] := by
  cases cs with
  | nil => simp [splitDash]
  | cons c rest =>
    by_cases hc : c = '-'
    · subst hc; rw [splitDash_cons_dash]; simp
    · rw [splitDash_cons_ne rest hc]; simp

theorem splitDash_no_dash_mem (cs : List Char) :
    ∀ p ∈ splitDash cs, '-' ∉ p := by
  induction cs with
  | nil => intro p hp; simp [splitDash] at hp; simp [hp]
  | cons c rest ih =>
    intro p hp
    by_cases hc : c = '-'
    · subst hc
      rw [splitDash_cons_dash] at hp
      rcases List.mem_cons.mp hp with rfl | hp
      · simp
      · exact ih p hp
    · rw [splitDash_cons_ne rest hc] at hp
      cases h : splitDash rest with
      | nil => exact absurd h (splitDash_ne_nil rest)
      | cons q ps =>
        rw [h] at hp
        simp only [List.headD_cons, List.tail_cons] at hp
        rcases List.mem_cons.mp hp with rfl | hp
        · intro hmem
          rcases List.mem_cons.mp hmem with he | hmem
          · exact hc he.symm
          · exact ih q (by rw [h]; exact List.mem_cons_self q ps) hmem
        · exact ih p (by rw [h]; exact List.mem_cons.mpr (Or.inr hp))

theorem splitDash_of_no_dash (cs : List Char) (h : '-' ∉ cs) : splitDash cs = [cs] := by
  induction cs with
  | nil => rfl
  | cons c rest ih =>
    have hc : c ≠ '-' := fun he => h (by simp [he])
    have hrest : '-' ∉ rest := fun hm => h (by simp [hm])
    rw [splitDash_cons_ne rest hc, ih hrest]
    rfl

theorem splitDash_append (a rest : List Char) (ha : '-' ∉ a) :
    splitDash (a ++ '-' :: rest) = a :: splitDash rest := by
  induction a with
  | nil =>
    show splitDash ('-' :: rest) = [] :: splitDash rest
    exact splitDash_cons_dash rest
  | cons c a ih =>
    have hc : c ≠ '-' := fun he => ha (by simp [he])
    have ha2 : '-' ∉ a := fun hm => ha (by simp [hm])
    show splitDash (c :: (a ++ '-' :: rest)) = (c :: a) :: splitDash rest
    rw [splitDash_cons_ne _ hc, ih ha2]
    rfl

theorem splitDash_three (a b c : List Char) (ha : '-' ∉ a) (hb : '-' ∉ b)
    (hc : '-' ∉ c) : splitDash (a ++ '-' :: (b ++ '-' :: c)) = [a, b, c] := by
  rw [splitDash_append _ _ ha, splitDash_append _ _ hb, splitDash_of_no_dash _ hc]

/-- Joining parts with dashes, the inverse of `splitDash`. -/
def joinDash : List (List Char) → List Char
  | [] => []
  | [p] => p
  | p :: ps => p ++ '-' :: joinDash ps

theorem splitDash_join (cs : List Char) : joinDash (splitDash cs) = cs := by
  induction cs with
  | nil => rfl
  | cons c rest ih =>
    by_cases hc : c = '-'
    · subst hc
      rw [splitDash_cons_dash]
      cases h : splitDash rest with
      | nil => exact absurd h (splitDash_ne_nil rest)
      | cons q qs =>
        rw [h] at ih
        show [] ++ '-' :: joinDash (q :: qs) = '-' :: rest
        simp only [List.nil_append]
        rw [ih]
    · rw [splitDash_cons_ne rest hc]
      cases h : splitDash rest with
      | nil => exact absurd h (splitDash_ne_nil rest)
      | cons q qs =>
        rw [h] at ih
        simp only [List.headD_cons, List.tail_cons]
        cases qs with
        | nil =>
          show c :: q = c :: rest
          have hq : q = rest := ih
          rw [hq]
        | cons r rs =>
          show (c :: q) ++ '-' :: joinDash (r :: rs) = c :: rest
          have hq : q ++ '-' :: joinDash (r :: rs) = rest := ih
          simp only [List.cons_append]
          rw [hq]

theorem splitDash_eq_three {cs py pm pd : List Char}
    (h : splitDash cs = [py, pm, pd]) : cs = py ++ '-' :: (pm ++ '-' :: pd) := by
  have := splitDash_join cs
  rw [h] at this
  exact this.symm

theorem parseYMD?_of_three {cs a b c : List Char} (h : splitDash cs = [a, b, c]) :
    parseYMD? cs = parseYMD3 a b c := by
  unfold parseYMD?
  rw [h]

theorem not_dash_of_all_dig {p : List Char} (h : ∀ c ∈ p, isDig c = true) : '-' ∉ p := by
  intro hm
  exact absurd (h '-' hm) (by decide)

/-- Validity of every successfully parsed date. -/
theorem parseYMD?_valid {cs : List Char} {y m d : Nat}
    (h : parseYMD? cs = some (y, m, d)) : ValidYMD y m d := by
  unfold parseYMD? at h
  split at h
  case h_1 py pm pd heq =>
    unfold parseYMD3 at h
    split at h
    case isTrue h1 =>
      split at h
      case isTrue h2 =>
        obtain ⟨hy, hm, hd⟩ : digVal py = y ∧ digVal pm = m ∧ digVal pd = d := by
          have := Option.some.injEq _ _ ▸ h
          refine ⟨?_, ?_, ?_⟩ <;> simp_all
        subst hy; subst hm; subst hd
        obtain ⟨hl4, hadig, _, _, _, _, _, _⟩ := h1
        have hylt : digVal py < 10 ^ (4 : Nat) := by
          have := digVal_lt py (List.all_eq_true.mp hadig)
          rwa [hl4] at this
        obtain ⟨c1, c2, c3, c4, c5⟩ := h2
        exact ⟨c1, by omega, c2, c3, c4, c5⟩
      case isFalse => exact absurd h (by simp)
    case isFalse => exact absurd h (by simp)
  case h_2 => exact absurd h (by simp)

/-! ### Specification-side date-format predicates (claim C8)

`strictDateSpec` is written from the claim text: a four-digit year and
two-digit zero-padded month and day forming an existing calendar date.
`lenientDateSpec` is the amended version: month and day may be written with
one digit (zero-padding optional), which is what `strptime` accepts. -/

def strictDateRender (y m d : Nat) : List Char :=
  padDigits 4 y ++ '-' :: (padDigits 2 m ++ '-' :: padDigits 2 d)

/-- Strict `YYYY-MM-DD` (claim text): four-digit year, two-digit zero-padded
month and day, existing calendar date. -/
def strictDateSpec (s : String) : Prop :=
  ∃ y m d, 1 ≤ y ∧ y ≤ 9999 ∧ 1 ≤ m ∧ m ≤ 12 ∧ 1 ≤ d ∧ d ≤ daysInMonth y m ∧
    s.data = strictDateRender y m d

def lenientRender (y m d lm ld : Nat) : List Char :=
  padDigits 4 y ++ '-' :: (padDigits lm m ++ '-' :: padDigits ld d)

/-- Lenient `%Y-%m-%d` (amended claim): four-digit year, month and day with
one or two digits (zero-padding optional), existing calendar date. -/
def lenientDateSpec (s : String) : Prop :=
  ∃ y m d lm ld, 1 ≤ y ∧ y ≤ 9999 ∧ 1 ≤ m ∧ m ≤ 12 ∧ 1 ≤ d ∧ d ≤ daysInMonth y m ∧
    ((lm = 1 ∧ m < 10) ∨ lm = 2) ∧ ((ld = 1 ∧ d < 10) ∨ ld = 2) ∧
    s.data = lenientRender y m d lm ld

theorem validate_date_iff_lenient (s : String) :
    validate_date s = true ↔ lenientDateSpec s := by
  constructor
  · intro h
    unfold validate_date at h
    rw [Option.isSome_iff_exists] at h
    obtain ⟨⟨y, m, d⟩, hp⟩ := h
    have hv := parseYMD?_valid hp
    unfold parseYMD? at hp
    split at hp
    case h_1 py pm pd heq =>
      unfold parseYMD3 at hp
      split at hp
      case isTrue h1 =>
        split at hp
        case isTrue h2 =>
          obtain ⟨hy, hm, hd⟩ : digVal py = y ∧ digVal pm = m ∧ digVal pd = d := by
            have := Option.some.injEq _ _ ▸ hp
            refine ⟨?_, ?_, ?_⟩ <;> simp_all
          obtain ⟨hl4, hadig, hml, hmu, hmdig, hdl, hdu, hddig⟩ := h1
          obtain ⟨v1, v2, v3, v4, v5, v6⟩ := hv
          refine ⟨y, m, d, pm.length, pd.length, v1, v2, v3, v4, v5, v6, ?_, ?_, ?_⟩
          · rcases Nat.lt_or_ge pm.length 2 with hlt | hge
            · left
              refine ⟨by omega, ?_⟩
              have := digVal_lt pm (List.all_eq_true.mp hmdig)
              have hplen : pm.length = 1 := by omega
              rw [hplen] at this
              omega
            · right; omega
          · rcases Nat.lt_or_ge pd.length 2 with hlt | hge
            · left
              refine ⟨by omega, ?_⟩
              have := digVal_lt pd (List.all_eq_true.mp hddig)
              have hplen : pd.length = 1 := by omega
              rw [hplen] at this
              omega
            · right; omega
          · have hjoin := splitDash_eq_three heq
            unfold lenientRender
            rw [hjoin]
            have e1 : padDigits 4 y = py := by
              rw [← hy, ← hl4]
              exact padDigits_digVal py (List.all_eq_true.mp hadig)
            have e2 : padDigits pm.length m = pm := by
              rw [← hm]
              exact padDigits_digVal pm (List.all_eq_true.mp hmdig)
            have e3 : padDigits pd.length d = pd := by
              rw [← hd]
              exact padDigits_digVal pd (List.all_eq_true.mp hddig)
            rw [e1, e2, e3]
        case isFalse => exact absurd hp (by simp)
      case isFalse => exact absurd hp (by simp)
    case h_2 => exact absurd hp (by simp)
  · rintro ⟨y, m, d, lm, ld, hy1, hy2, hm1, hm2, hd1, hd2, hlm, hld, hdata⟩
    unfold validate_date
    rw [hdata]
    unfold lenientRender
    have hsplit := splitDash_three (padDigits 4 y) (padDigits lm m) (padDigits ld d)
      (not_dash_of_all_dig (padDigits_all_dig 4 y))
      (not_dash_of_all_dig (padDigits_all_dig lm m))
      (not_dash_of_all_dig (padDigits_all_dig ld d))
    rw [parseYMD?_of_three hsplit]
    have hyv : digVal (padDigits 4 y) = y := digVal_padDigits 4 y (by norm_num; omega)
    have hmv : digVal (padDigits lm m) = m := by
      rcases hlm with ⟨rfl, hm10⟩ | rfl
      · exact digVal_padDigits 1 m (by norm_num; omega)
      · exact digVal_padDigits 2 m (by norm_num; omega)
    have hdv : digVal (padDigits ld d) = d := by
      have hd31 : d ≤ 31 := le_trans hd2 (daysInMonth_le y m)
      rcases hld with ⟨rfl, hd10⟩ | rfl
      · exact digVal_padDigits 1 d (by norm_num; omega)
      · exact digVal_padDigits 2 d (by norm_num; omega)
    unfold parseYMD3
    rw [if_pos, if_pos]
    · rfl
    · rw [hyv, hmv, hdv]
      exact ⟨hy1, hm1, hm2, hd1, hd2⟩
    · refine ⟨padDigits_length 4 y, List.all_eq_true.mpr (padDigits_all_dig 4 y), ?_, ?_,
        List.all_eq_true.mpr (padDigits_all_dig lm m), ?_, ?_,
        List.all_eq_true.mpr (padDigits_all_dig ld d)⟩ <;>
      · rw [padDigits_length]
        rcases hlm with ⟨rfl, _⟩ | rfl <;> rcases hld with ⟨rfl, _⟩ | rfl <;> omega

/-! ## Insertion-ordered dictionaries

Python dicts preserve insertion order: assigning to an existing key updates
the value in place, assigning to a fresh key appends, and `del` removes the
entry.  An association list with unique keys models this exactly. -/

section Alist

variable {κ ν : Type} [DecidableEq κ]

/-- First-match lookup (keys are unique by construction). -/
def alistGet? : List (κ × ν) → κ → Option ν
  | [], _ => none
  | p :: l, k => if p.1 = k then some p.2 else alistGet? l k

/-- Models `d[k] = v`. -/
def alistSet : List (κ × ν) → κ → ν → List (κ × ν)
  | [], k, v => [(k, v)]
  | p :: l, k, v => if p.1 = k then (k, v) :: l else p :: alistSet l k v

/-- Models `d[k] = f(d.get(k, dflt))`, the `defaultdict` update pattern. -/
def alistUpsert : List (κ × ν) → κ → (ν → ν) → ν → List (κ × ν)
  | [], k, f, dflt => [(k, f dflt)]
  | p :: l, k, f, dflt => if p.1 = k then (k, f p.2) :: l else p :: alistUpsert l k f dflt

/-- Models `del d[k]` (for a unique-key list). -/
def alistErase (l : List (κ × ν)) (k : κ) : List (κ × ν) :=
  l.filter (fun p => p.1 ≠ k)

def alistKeys (l : List (κ × ν)) : List κ := l.map (·.1)

theorem alistGet?_eq_none {l : List (κ × ν)} {k : κ} (h : k ∉ alistKeys l) :
    alistGet? l k = none := by
  induction l with
  | nil => rfl
  | cons p l ih =>
    have hne : p.1 ≠ k := fun he => h (List.mem_cons.mpr (Or.inl he.symm))
    have hk2 : k ∉ alistKeys l := fun hm => h (List.mem_cons.mpr (Or.inr hm))
    unfold alistGet?
    rw [if_neg hne, ih hk2]

theorem alistGet?_isSome_of_mem {l : List (κ × ν)} {k : κ} (h : k ∈ alistKeys l) :
    (alistGet? l k).isSome = true := by
  induction l with
  | nil => simp [alistKeys] at h
  | cons p l ih =>
    unfold alistGet?
    by_cases he : p.1 = k
    · rw [if_pos he]; rfl
    · rw [if_neg he]
      apply ih
      simp only [alistKeys, List.map_cons, List.mem_cons] at h
      rcases h with h | h
      · exact absurd h.symm he
      · exact h

theorem mem_of_alistGet?_eq_some {l : List (κ × ν)} {k : κ} {v : ν}
    (h : alistGet? l k = some v) : (k, v) ∈ l := by
  induction l with
  | nil => exact absurd h (by simp [alistGet?])
  | cons p l ih =>
    unfold alistGet? at h
    by_cases he : p.1 = k
    · rw [if_pos he] at h
      have hv : p.2 = v := by injection h
      have hp : p = (k, v) := by
        obtain ⟨a, b⟩ := p
        simp_all
      rw [hp]
      exact List.mem_cons_self _ _
    · rw [if_neg he] at h
      exact List.mem_cons.mpr (Or.inr (ih h))

theorem alistKeys_set (l : List (κ × ν)) (k : κ) (v : ν) :
    ∀ k', k' ∈ alistKeys (alistSet l k v) ↔ k' = k ∨ k' ∈ alistKeys l := by
  intro k'
  induction l with
  | nil => simp [alistSet, alistKeys]
  | cons p l ih =>
    unfold alistSet
    by_cases he : p.1 = k
    · rw [if_pos he]
      simp only [alistKeys, List.map_cons, List.mem_cons]
      rw [he]
      tauto
    · rw [if_neg he]
      simp only [alistKeys, List.map_cons, List.mem_cons] at ih ⊢
      tauto

theorem alistKeys_upsert (l : List (κ × ν)) (k : κ) (f : ν → ν) (dflt : ν) :
    ∀ k', k' ∈ alistKeys (alistUpsert l k f dflt) ↔ k' = k ∨ k' ∈ alistKeys l := by
  intro k'
  induction l with
  | nil => simp [alistUpsert, alistKeys]
  | cons p l ih =>
    unfold alistUpsert
    by_cases he : p.1 = k
    · rw [if_pos he]
      simp only [alistKeys, List.map_cons, List.mem_cons]
      rw [he]
      tauto
    · rw [if_neg he]
      simp only [alistKeys, List.map_cons, List.mem_cons] at ih ⊢
      tauto

theorem alistKeys_erase_subset (l : List (κ × ν)) (k : κ) :
    ∀ k', k' ∈ alistKeys (alistErase l k) → k' ∈ alistKeys l := by
  intro k' h
  simp only [alistKeys, alistErase, List.mem_map] at h ⊢
  obtain ⟨p, hp, rfl⟩ := h
  exact ⟨p, List.mem_of_mem_filter hp, rfl⟩

theorem alistGet?_erase (l : List (κ × ν)) (k : κ) : alistGet? (alistErase l k) k = none := by
  apply alistGet?_eq_none
  intro h
  simp only [alistKeys, alistErase, List.mem_map] at h
  obtain ⟨p, hp, he⟩ := h
  have := List.of_mem_filter hp
  simp only [decide_eq_true_eq] at this
  exact this he

theorem keys_nodup_set {l : List (κ × ν)} {k : κ} (v : ν)
    (h : (alistKeys l).Nodup) : (alistKeys (alistSet l k v)).Nodup := by
  induction l with
  | nil => simp [alistSet, alistKeys]
  | cons p l ih =>
    simp only [alistKeys, List.map_cons, List.nodup_cons] at h
    unfold alistSet
    by_cases he : p.1 = k
    · rw [if_pos he]
      simp only [alistKeys, List.map_cons, List.nodup_cons]
      rw [← he]
      exact h
    · rw [if_neg he]
      simp only [alistKeys, List.map_cons, List.nodup_cons]
      refine ⟨?_, ih h.2⟩
      intro hm
      rcases (alistKeys_set l k v p.1).mp hm with hx | hx
      · exact he hx
      · exact h.1 hx

theorem keys_nodup_upsert {l : List (κ × ν)} {k : κ} (f : ν → ν) (dflt : ν)
    (h : (alistKeys l).Nodup) : (alistKeys (alistUpsert l k f dflt)).Nodup := by
  induction l with
  | nil => simp [alistUpsert, alistKeys]
  | cons p l ih =>
    simp only [alistKeys, List.map_cons, List.nodup_cons] at h
    unfold alistUpsert
    by_cases he : p.1 = k
    · rw [if_pos he]
      simp only [alistKeys, List.map_cons, List.nodup_cons]
      rw [← he]
      exact h
    · rw [if_neg he]
      simp only [alistKeys, List.map_cons, List.nodup_cons]
      refine ⟨?_, ih h.2⟩
      intro hm
      rcases (alistKeys_upsert l k f dflt p.1).mp hm with hx | hx
      · exact he hx
      · exact h.1 hx

theorem keys_nodup_erase {l : List (κ × ν)} (k : κ)
    (h : (alistKeys l).Nodup) : (alistKeys (alistErase l k)).Nodup := by
  induction l with
  | nil => simp [alistErase, alistKeys]
  | cons p l ih =>
    simp only [alistKeys, List.map_cons, List.nodup_cons] at h
    unfold alistErase
    rw [List.filter_cons]
    split
    · simp only [alistKeys, List.map_cons, List.nodup_cons]
      refine ⟨?_, ih h.2⟩
      intro hm
      exact h.1 (alistKeys_erase_subset l k p.1 hm)
    · exact ih h.2

theorem alistGet?_upsert_self (l : List (κ × ν)) (k : κ) (f : ν → ν) (dflt : ν) :
    alistGet? (alistUpsert l k f dflt) k =
      some (f ((alistGet? l k).getD dflt)) := by
  induction l with
  | nil => simp [alistUpsert, alistGet?]
  | cons p l ih =>
    unfold alistUpsert
    by_cases he : p.1 = k
    · rw [if_pos he]
      unfold alistGet?
      rw [if_pos rfl, if_pos he]
      rfl
    · rw [if_neg he]
      unfold alistGet?
      rw [if_neg he, if_neg he]
      exact ih

theorem alistGet?_upsert_other (l : List (κ × ν)) {k k' : κ} (hne : k' ≠ k)
    (f : ν → ν) (dflt : ν) :
    alistGet? (alistUpsert l k f dflt) k' = alistGet? l k' := by
  induction l with
  | nil =>
    simp only [alistUpsert, alistGet?]
    rw [if_neg (fun he => hne he.symm)]
  | cons p l ih =>
    unfold alistUpsert
    by_cases he : p.1 = k
    · rw [if_pos he]
      unfold alistGet?
      rw [if_neg (fun hx => hne hx.symm), if_neg (by rw [he]; exact fun hx => hne hx.symm)]
    · rw [if_neg he]
      unfold alistGet?
      by_cases he2 : p.1 = k'
      · rw [if_pos he2, if_pos he2]
      · rw [if_neg he2, if_neg he2]
        exact ih

/-- Setting a fresh key appends the binding at the end. -/
theorem alistSet_fresh (l : List (κ × ν)) {k : κ} (hk : k ∉ alistKeys l) (v : ν) :
    alistSet l k v = l ++ [(k, v)] := by
  induction l with
  | nil => rfl
  | cons p l ih =>
    have hne : p.1 ≠ k := fun he => hk (List.mem_cons.mpr (Or.inl he.symm))
    have hk2 : k ∉ alistKeys l := fun hm => hk (List.mem_cons.mpr (Or.inr hm))
    unfold alistSet
    rw [if_neg hne, ih hk2]
    rfl

end Alist

/-! ## Data model and persistence -/

/-- An expense record: the dict that `add_expense` stores. -/
structure ExpRec where
  category : String
  amount : ℚ
  date : String
  description : String
deriving DecidableEq

/-- The program state: global `expenses` dict plus `expense_counter`. -/
structure St where
  expenses : List (Int × ExpRec)
  expense_counter : Int
deriving DecidableEq

/-- JSON values (strings abstract over escaping, which `json` round-trips;
numbers are exact rationals). -/
inductive JVal where
  | jnull : JVal
  | jbool : Bool → JVal
  | jnum : ℚ → JVal
  | jstr : String → JVal
  | jarr : List JVal → JVal
  | jobj : List (String × JVal) → JVal

/-- Content of the persistence file as seen by `load_expenses`. -/
inductive FileContent where
  | absent : FileContent
  | ioError : FileContent
  | badJSON : FileContent
  | json : JVal → FileContent

inductive PyErr where
  | attributeError : PyErr
  | valueError : PyErr
deriving DecidableEq

/-- Result of running `load_expenses`: `fresh` keeps the initial globals
(`{}` and 1), `recovered` is the caught-exception reset, `ok` carries the
loaded entry list and the raw counter value, `crash` is an uncaught
exception escaping the function. -/
inductive LoadResult where
  | fresh : LoadResult
  | recovered : LoadResult
  | ok : List (Int × JVal) → JVal → LoadResult
  | crash : PyErr → LoadResult

/-- Last-match lookup: a Python dict built from JSON text keeps the last
occurrence of a duplicated key, so `.get` sees the last binding. -/
def lookupLast (fields : List (String × JVal)) (k : String) : Option JVal :=
  fields.foldl (fun acc p => if p.1 = k then some p.2 else acc) none

/-- The dict comprehension `{int(k): v for k, v in data.get('expenses',
{}).items()}`: `int(k)` raises ValueError on a non-numeric key and the
comprehension propagates it. -/
def intKeys : List (String × JVal) → Except PyErr (List (Int × JVal))
  | [] => .ok []
  | (k, v) :: rest =>
    match pyInt? k with
    | none => .error .valueError
    | some i =>
      match intKeys rest with
      | .error e => .error e
      | .ok l => .ok ((i, v) :: l)

/-- Source `load_expenses`.  Only `json.JSONDecodeError` and `IOError` are
caught; `data.get` on a non-object top level, `.items()` on a non-object
`expenses` field, and `int(k)` on a non-numeric key all raise uncaught
exceptions. -/
def load_expenses : FileContent → LoadResult
  | .absent => .fresh
  | .ioError => .recovered
  | .badJSON => .recovered
  | .json v =>
    match v with
    | .jobj fields =>
      match (lookupLast fields "expenses").getD (.jobj []) with
      | .jobj eFields =>
        match intKeys eFields with
        | .error e => .crash e
        | .ok pairs =>
          .ok (pairs.foldl (fun acc p => alistSet acc p.1 p.2) [])
            ((lookupLast fields "counter").getD (.jnum 1))
      | _ => .crash .attributeError
    | _ => .crash .attributeError

/-- JSON serialization of a record, matching the dict `add_expense` builds
(insertion order category, amount, date, description). -/
def recToJVal (r : ExpRec) : JVal :=
  .jobj [("category", .jstr r.category), ("amount", .jnum r.amount),
         ("date", .jstr r.date), ("description", .jstr r.description)]

def recOfJVal? : JVal → Option ExpRec
  | .jobj [("category", .jstr c), ("amount", .jnum a),
           ("date", .jstr dt), ("description", .jstr ds)] =>
    some ⟨c, a, dt, ds⟩
  | _ => none

/-- Source `save_expenses`: the JSON value written to the file.  `json.dump`
renders the int keys of the `expenses` dict as their decimal strings. -/
def save_expenses (st : St) : JVal :=
  .jobj [("expenses",
          .jobj (st.expenses.map (fun p => (intToString p.1, recToJVal p.2)))),
         ("counter", .jnum (st.expense_counter : ℚ))]

/-- Decoding a load result into a session state: all entry values must be
record objects and the counter an integer — the shape `save_expenses`
writes. -/
def sessionOf : LoadResult → Option St
  | .fresh => some ⟨[], 1⟩
  | .recovered => some ⟨[], 1⟩
  | .crash _ => none
  | .ok entries counter =>
    match counter with
    | .jnum q =>
      if q.den = 1 then
        (entries.mapM (fun p => (recOfJVal? p.2).map (fun r => (p.1, r)))).map
          (fun l => ⟨l, q.num⟩)
      else none
    | _ => none

theorem recOfJVal?_recToJVal (r : ExpRec) : recOfJVal? (recToJVal r) = some r := rfl

theorem intKeys_map (l : List (Int × ExpRec)) :
    intKeys (l.map (fun p => (intToString p.1, recToJVal p.2))) =
      .ok (l.map (fun p => (p.1, recToJVal p.2))) := by
  induction l with
  | nil => rfl
  | cons p l ih =>
    show intKeys ((intToString p.1, recToJVal p.2) :: _) = _
    unfold intKeys
    rw [pyInt?_intToString, ih]
    rfl

theorem foldl_alistSet_of_nodup {ν : Type} (l acc : List (Int × ν))
    (hd : ∀ p ∈ l, p.1 ∉ alistKeys acc) (hl : (l.map (·.1)).Nodup) :
    l.foldl (fun acc p => alistSet acc p.1 p.2) acc = acc ++ l := by
  induction l generalizing acc with
  | nil => simp
  | cons p l ih =>
    simp only [List.foldl_cons]
    rw [alistSet_fresh acc (hd p (List.mem_cons_self p l)) p.2]
    simp only [List.map_cons, List.nodup_cons] at hl
    rw [ih (acc ++ [(p.1, p.2)]) ?hfresh hl.2]
    · simp
    case hfresh =>
      intro q hq
      intro hmem
      simp only [alistKeys, List.map_append, List.mem_append, List.map_cons,
        List.map_nil, List.mem_singleton] at hmem
      rcases hmem with hmem | hmem
      · exact hd q (List.mem_cons.mpr (Or.inr hq)) hmem
      · exact hl.1 (by rw [← hmem]; exact List.mem_map.mpr ⟨q, hq, rfl⟩)

/-! ## Remaining Python string and number primitives -/

def toUpperA (c : Char) : Char :=
  if 'a' ≤ c ∧ c ≤ 'z' then Char.ofNat (c.toNat - 32) else c

def toLowerA (c : Char) : Char :=
  if 'A' ≤ c ∧ c ≤ 'Z' then Char.ofNat (c.toNat + 32) else c

def isAlphaA (c : Char) : Bool :=
  ('A' ≤ c && c ≤ 'Z') || ('a' ≤ c && c ≤ 'z')

/-- Models `str.lower()` (ASCII). -/
def pyLower (s : String) : String := ⟨s.data.map toLowerA⟩

def pyTitleGo : Bool → List Char → List Char
  | _, [] => []
  | prevCased, c :: cs =>
    (if isAlphaA c then (if prevCased then toLowerA c else toUpperA c) else c) ::
      pyTitleGo (isAlphaA c) cs

/-- Models `str.title()` (ASCII): a letter is uppercased when the previous
character is not cased, lowercased otherwise. -/
def pyTitle (s : String) : String := ⟨pyTitleGo false s.data⟩

def applyExp (q : ℚ) (e : Int) : ℚ :=
  if 0 ≤ e then q * 10 ^ e.toNat else q / 10 ^ (-e).toNat

/-- Mantissa then optional exponent: `digits [. digits] [(e|E) signed-digits]`
with at least one mantissa digit. -/
def pyFloatMant (cs : List Char) : Option ℚ :=
  let ip := cs.takeWhile isDig
  let rest := cs.dropWhile isDig
  match rest with
  | [] => if ip.isEmpty then none else some (digVal ip)
  | '.' :: r2 =>
    let fp := r2.takeWhile isDig
    let rest2 := r2.dropWhile isDig
    if ip.isEmpty && fp.isEmpty then none
    else
      let mant : ℚ := digVal ip + (digVal fp : ℚ) / (10 ^ fp.length)
      match rest2 with
      | [] => some mant
      | 'e' :: r3 => (pyIntCore r3).map (applyExp mant)
      | 'E' :: r3 => (pyIntCore r3).map (applyExp mant)
      | _ => none
  | 'e' :: r3 => if ip.isEmpty then none else (pyIntCore r3).map (applyExp (digVal ip))
  | 'E' :: r3 => if ip.isEmpty then none else (pyIntCore r3).map (applyExp (digVal ip))
  | _ => none

/-- Models `float(s)` for finite decimal literals (inf/nan, underscore
separators and hex floats are outside the model); a leading minus negates
the parsed magnitude. -/
def pyFloat? (s : String) : Option ℚ :=
  match stripWS s.data with
  | '-' :: rest => (pyFloatMant rest).map (fun q => -q)
  | '+' :: rest => pyFloatMant rest
  | cs => pyFloatMant cs

/-- Source `validate_amount`: parse as float, reject non-positive values;
parse failure is reported via the boolean. -/
def validate_amount (amount_string : String) : Bool × ℚ :=
  match pyFloat? amount_string with
  | none => (false, 0)
  | some a => if a ≤ 0 then (false, 0) else (true, a)

/-! ## Sorting (models Python `sorted`, a stable sort)

`r a b` reads "a may be placed before b"; an element is inserted before the
first element it must precede strictly, so ties keep their original relative
order, as in Python's stable sorts. -/

def insertB {α : Type} (r : α → α → Bool) (a : α) : List α → List α
  | [] => [a]
  | b :: l => if r a b then a :: b :: l else b :: insertB r a l

def sortB {α : Type} (r : α → α → Bool) : List α → List α
  | [] => []
  | a :: l => insertB r a (sortB r l)

theorem mem_insertB {α : Type} (r : α → α → Bool) (a x : α) (l : List α) :
    x ∈ insertB r a l ↔ x = a ∨ x ∈ l := by
  induction l with
  | nil => simp [insertB]
  | cons b l ih =>
    unfold insertB
    split
    · simp
    · rw [List.mem_cons, ih, List.mem_cons]
      tauto

theorem mem_sortB {α : Type} (r : α → α → Bool) (x : α) (l : List α) :
    x ∈ sortB r l ↔ x ∈ l := by
  induction l with
  | nil => simp [sortB]
  | cons a l ih =>
    unfold sortB
    rw [mem_insertB, ih, List.mem_cons]

theorem perm_insertB {α : Type} (r : α → α → Bool) (a : α) (l : List α) :
    (insertB r a l).Perm (a :: l) := by
  induction l with
  | nil => exact List.Perm.refl _
  | cons b l ih =>
    unfold insertB
    split
    · exact List.Perm.refl _
    · exact ((ih.cons b).trans (List.Perm.swap a b l))

theorem perm_sortB {α : Type} (r : α → α → Bool) (l : List α) :
    (sortB r l).Perm l := by
  induction l with
  | nil => exact List.Perm.refl _
  | cons a l ih =>
    unfold sortB
    exact (perm_insertB r a (sortB r l)).trans (ih.cons a)

theorem pairwise_insertB {α : Type} {r : α → α → Bool}
    (htot : ∀ x y, r x y = true ∨ r y x = true)
    (htrans : ∀ x y z, r x y = true → r y z = true → r x z = true)
    (a : α) (l : List α) (h : l.Pairwise (fun x y => r x y = true)) :
    (insertB r a l).Pairwise (fun x y => r x y = true) := by
  induction l with
  | nil => simp [insertB]
  | cons b l ih =>
    obtain ⟨hb, hl⟩ := List.pairwise_cons.mp h
    unfold insertB
    split
    case isTrue hr =>
      rw [List.pairwise_cons]
      refine ⟨?_, h⟩
      intro x hx
      rcases List.mem_cons.mp hx with rfl | hx
      · exact hr
      · exact htrans a b x hr (hb x hx)
    case isFalse hr =>
      rw [List.pairwise_cons]
      refine ⟨?_, ih hl⟩
      intro x hx
      rcases (mem_insertB r a x l).mp hx with rfl | hx
      · rcases htot x b with h1 | h1
        · exact absurd h1 hr
        · exact h1
      · exact hb x hx

theorem pairwise_sortB {α : Type} {r : α → α → Bool}
    (htot : ∀ x y, r x y = true ∨ r y x = true)
    (htrans : ∀ x y z, r x y = true → r y z = true → r x z = true)
    (l : List α) : (sortB r l).Pairwise (fun x y => r x y = true) := by
  induction l with
  | nil => simp [sortB]
  | cons a l ih =>
    unfold sortB
    exact pairwise_insertB htot htrans a (sortB r l) ih

/-! ## Periodic summary -/

/-- Granularity selected by menu input 1/2/3 in `generate_expense_summary`. -/
inductive Gran where
  | week | month | year
deriving DecidableEq

/-- Structured content of a grouping-key string: the numbers in
`'%Y-W%U'` (of the week's Monday) for weeks, `'%Y-%m'` for months, `'%Y'`
for years.  With four-digit zero-padded years — true of strftime output for
years ≥ 1000 on all platforms, and of the zero-padding convention for
earlier years — and always-two-digit `%U`/`%m`, lexicographic order on the
key strings coincides with lexicographic order on these numbers, which is
how the model compares keys. -/
inductive PKey where
  | week : Nat → Nat → PKey
  | month : Nat → Nat → PKey
  | year : Nat → PKey
deriving DecidableEq

def PKey.rank : PKey → Nat × Nat × Nat
  | .week y u => (0, y, u)
  | .month y m => (1, y, m)
  | .year y => (2, y, 0)

def tripleLtB (a b : Nat × Nat × Nat) : Bool :=
  decide (a.1 < b.1) ||
    (decide (a.1 = b.1) &&
      (decide (a.2.1 < b.2.1) || (decide (a.2.1 = b.2.1) && decide (a.2.2 < b.2.2))))

def pkeyLtB (a b : PKey) : Bool := tripleLtB a.rank b.rank

/-- Descending "goes before" order on keys, as in
`sorted(summaries.keys(), reverse=True)`. -/
def pkeyGeB (a b : PKey) : Bool := !(pkeyLtB a b)

structure PSum where
  total : ℚ
  count : Nat
  categories : List (String × ℚ)
deriving DecidableEq

/-- One record folded into its period's accumulator (the body of the
grouping loop in `generate_expense_summary`). -/
def addRec (s : PSum) (r : ExpRec) : PSum :=
  { total := s.total + r.amount
    count := s.count + 1
    categories := alistUpsert s.categories r.category (· + r.amount) 0 }

def emptyPSum : PSum := ⟨0, 0, []⟩

/-- Grouping key of a record under granularity `g`.  The stored date must
parse with `strptime('%Y-%m-%d')`. -/
def recKey? (g : Gran) (r : ExpRec) : Option PKey :=
  (parseYMD? r.date.data).map (fun t =>
    match g with
    | .week => PKey.week (weekKeyOf t.1 t.2.1 t.2.2).1 (weekKeyOf t.1 t.2.1 t.2.2).2
    | .month => PKey.month t.1 t.2.1
    | .year => PKey.year t.1)

/-- The `summaries` defaultdict after the grouping loop.  A record whose
date fails to parse is skipped here; at that point the source raises an
uncaught ValueError from `strptime`, so the theorems about the summary carry
the hypothesis that every stored date parses. -/
def buildSummaries (g : Gran) (l : List (Int × ExpRec)) : List (PKey × PSum) :=
  l.foldl (fun acc p =>
    match recKey? g p.2 with
    | some k => alistUpsert acc k (fun s => addRec s p.2) emptyPSum
    | none => acc) []

structure DispEntry where
  key : PKey
  total : ℚ
  count : Nat
  average : ℚ
  topCategories : Option (List (String × ℚ))
deriving DecidableEq

/-- Amount-descending "goes before" for the top-categories sort (stable,
like `sorted(categories.items(), key=amount, reverse=True)`). -/
def amtGeB (a b : String × ℚ) : Bool := decide (b.2 ≤ a.2)

/-- One displayed period: label omitted (pure presentation), average is
`total / count` as printed, top categories shown only when the period has
more than one category. -/
def renderSummary (k : PKey) (s : PSum) : DispEntry :=
  { key := k
    total := s.total
    count := s.count
    average := s.total / (s.count : ℚ)
    topCategories :=
      if 1 < s.categories.length then some ((sortB amtGeB s.categories).take 3)
      else none }

/-- Source `generate_expense_summary` for a chosen granularity: group, then
display each period in reverse-sorted key order. -/
def generate_expense_summary (st : St) (g : Gran) : List DispEntry :=
  let sums := buildSummaries g st.expenses
  (sortB pkeyGeB (sums.map (·.1))).filterMap
    (fun k => (alistGet? sums k).map (renderSummary k))

/-! ## Ledger operations (the interactive functions) -/

/-- Date-descending "goes before" for display sorts: the source sorts rows
by the raw date string, descending, stable. -/
def dateGeB (a b : Int × ExpRec) : Bool := decide (b.2.date ≤ a.2.date)

/-- Source `view_all_expenses`: `none` when there is nothing to show, else
the rows in display order. -/
def view_all_expenses (st : St) : Option (List (Int × ExpRec)) :=
  if st.expenses.isEmpty then none
  else some (sortB dateGeB st.expenses)

/-- Source `add_expense`.  Arguments are the prompted strings; `today` is
the `datetime.now()` date used when the date prompt is left empty.  Returns
the new state, whether a save ran, and the assigned ID if any. -/
def add_expense (st : St) (category amountStr dateStr descStr today : String) :
    St × Bool × Option Int :=
  let cat := pyStrip category
  if cat = "" then (st, false, none)
  else
    let va := validate_amount (pyStrip amountStr)
    if va.1 = false then (st, false, none)
    else
      let dIn := pyStrip dateStr
      if dIn ≠ "" ∧ validate_date dIn = false then (st, false, none)
      else
        let date := if dIn = "" then today else dIn
        let r : ExpRec := ⟨pyTitle cat, va.2, date, pyStrip descStr⟩
        (⟨alistSet st.expenses st.expense_counter r, st.expense_counter + 1⟩,
         true, some st.expense_counter)

inductive DelRes where
  | noExpenses : DelRes
  | invalidId : DelRes
  | notFound : Int → DelRes
  | cancelled : Int → DelRes
  | deleted : Int → DelRes
deriving DecidableEq

/-- Source `delete_expense`: parse the ID (`int` raising ValueError is
caught), check membership, then require confirmation `yes`/`y` after
strip+lower; only a confirmed delete mutates and saves. -/
def delete_expense (st : St) (idStr confirm : String) : St × Bool × DelRes :=
  if st.expenses.isEmpty then (st, false, .noExpenses)
  else
    match pyInt? (pyStrip idStr) with
    | none => (st, false, .invalidId)
    | some i =>
      match alistGet? st.expenses i with
      | none => (st, false, .notFound i)
      | some _ =>
        let c := pyLower (pyStrip confirm)
        if c = "yes" ∨ c = "y" then
          (⟨alistErase st.expenses i, st.expense_counter⟩, true, .deleted i)
        else (st, false, .cancelled i)

inductive FilterRes where
  | noExpenses : FilterRes
  | invalidNumber : FilterRes
  | noneFound : String → FilterRes
  | results : String → List (Int × ExpRec) → ℚ → FilterRes
deriving DecidableEq

/-- Lexicographic comparison of code-point sequences, as Python compares
strings: ascending order for the category menu (`sorted(categories)`). -/
def charsLeB : List Char → List Char → Bool
  | [], _ => true
  | _ :: _, [] => false
  | a :: as, b :: bs =>
    if a.toNat < b.toNat then true
    else if b.toNat < a.toNat then false
    else charsLeB as bs

def strLeB (a b : String) : Bool := charsLeB a.data b.data

/-- The sorted list of distinct categories shown by the filter menu. -/
def sortedCategories (st : St) : List String :=
  sortB strLeB (st.expenses.map (·.2.category)).dedup

/-- Source `filter_expenses_by_category`: an all-digit choice is read as a
1-based index into the sorted category list (out of range is an error);
anything else is title-cased and matched as a name. -/
def filter_expenses_by_category (st : St) (choice : String) : FilterRes :=
  if st.expenses.isEmpty then .noExpenses
  else
    let ch := pyStrip choice
    let cats := sortedCategories st
    let sel? : Option String :=
      if pyIsdigit ch then
        if 1 ≤ digVal ch.data ∧ digVal ch.data ≤ cats.length then
          cats[digVal ch.data - 1]?
        else none
      else some (pyTitle ch)
    match sel? with
    | none => .invalidNumber
    | some category =>
      let filtered := st.expenses.filter (fun p => p.2.category = category)
      if filtered.isEmpty then .noneFound category
      else
        .results category (sortB dateGeB filtered)
          (((sortB dateGeB filtered).map (·.2.amount)).sum)

/-- Source `calculate_total_expenses`: `none` when the ledger is empty, else
the grand total and the per-category totals (insertion order). -/
def calculate_total_expenses (st : St) : Option (ℚ × List (String × ℚ)) :=
  if st.expenses.isEmpty then none
  else
    some ((st.expenses.map (·.2.amount)).sum,
      st.expenses.foldl (fun acc p => alistUpsert acc p.2.category (· + p.2.amount) 0) [])

/-! ## The interactive shell as a step machine -/

inductive Ev where
  | add : String → String → String → String → String → Ev
  | view : Ev
  | filter : String → Ev
  | totalCalc : Ev
  | del : String → String → Ev
  | summary : String → Ev
  | visualize : String → Ev
  | menuInvalid : String → Ev

/-- One menu action: the next state and whether `save_expenses` ran.  View,
filter, total, summary and visualize read the globals but never assign them
and never call `save_expenses` (their bodies build only local data), so they
leave the state unchanged. -/
def step (st : St) : Ev → St × Bool
  | .add c a d ds t =>
    let r := add_expense st c a d ds t
    (r.1, r.2.1)
  | .del i c =>
    let r := delete_expense st i c
    (r.1, r.2.1)
  | .view => (st, false)
  | .filter _ => (st, false)
  | .totalCalc => (st, false)
  | .summary _ => (st, false)
  | .visualize _ => (st, false)
  | .menuInvalid _ => (st, false)

def run (st : St) : List Ev → St
  | [] => st
  | e :: es => run (step st e).1 es

/-- ID assigned by a step, when it is a successful add. -/
def stepAssigned (st : St) : Ev → Option Int
  | .add c a d ds t => (add_expense st c a d ds t).2.2
  | _ => none

/-- ID removed by a step, when it is a confirmed delete. -/
def stepDeleted (st : St) : Ev → Option Int
  | .del i c =>
    match (delete_expense st i c).2.2 with
    | .deleted k => some k
    | _ => none
  | _ => none

def assignedIds (st : St) : List Ev → List Int
  | [] => []
  | e :: es => (stepAssigned st e).toList ++ assignedIds (step st e).1 es

def deletedIds (st : St) : List Ev → List Int
  | [] => []
  | e :: es => (stepDeleted st e).toList ++ deletedIds (step st e).1 es

/-- The session invariant: the counter strictly exceeds every stored ID.  It
holds for the fresh state and for any state loaded from a file written by
`save_expenses`, and each step preserves it. -/
def GoodSt (st : St) : Prop := ∀ k ∈ alistKeys st.expenses, k < st.expense_counter

/-! ## Order lemmas for summary keys -/

theorem tripleLtB_iff (a b : Nat × Nat × Nat) :
    tripleLtB a b = true ↔
      a.1 < b.1 ∨ (a.1 = b.1 ∧ (a.2.1 < b.2.1 ∨ (a.2.1 = b.2.1 ∧ a.2.2 < b.2.2))) := by
  unfold tripleLtB
  simp [Bool.or_eq_true, Bool.and_eq_true, decide_eq_true_eq]

theorem bool_false_iff (b : Bool) : b = false ↔ ¬ b = true := by
  cases b <;> simp

theorem rank_inj {a b : PKey} (h : a.rank = b.rank) : a = b := by
  cases a <;> cases b <;> simp_all [PKey.rank]

theorem tripleLtB_asym {x y : Nat × Nat × Nat} (h : tripleLtB x y = true) :
    tripleLtB y x = false := by
  obtain ⟨x1, x2, x3⟩ := x
  obtain ⟨y1, y2, y3⟩ := y
  rw [tripleLtB_iff] at h
  rw [bool_false_iff, tripleLtB_iff]
  dsimp only at h ⊢
  omega

theorem tripleLtB_split (x y z : Nat × Nat × Nat) (h : tripleLtB x z = true) :
    tripleLtB x y = true ∨ tripleLtB y z = true := by
  obtain ⟨x1, x2, x3⟩ := x
  obtain ⟨y1, y2, y3⟩ := y
  obtain ⟨z1, z2, z3⟩ := z
  rw [tripleLtB_iff] at h
  rw [tripleLtB_iff, tripleLtB_iff]
  dsimp only at h ⊢
  omega

theorem tripleLtB_connex {x y : Nat × Nat × Nat} (hne : x ≠ y)
    (h : tripleLtB x y = false) : tripleLtB y x = true := by
  obtain ⟨x1, x2, x3⟩ := x
  obtain ⟨y1, y2, y3⟩ := y
  rw [bool_false_iff, tripleLtB_iff] at h
  rw [tripleLtB_iff]
  have hne2 : ¬(x1 = y1 ∧ x2 = y2 ∧ x3 = y3) := by
    intro he
    exact hne (by rw [he.1, he.2.1, he.2.2])
  dsimp only at h ⊢
  omega

theorem pkeyGeB_total (a b : PKey) : pkeyGeB a b = true ∨ pkeyGeB b a = true := by
  unfold pkeyGeB pkeyLtB
  cases h : tripleLtB a.rank b.rank with
  | false => left; rfl
  | true =>
    right
    rw [tripleLtB_asym h]
    rfl

theorem pkeyGeB_trans (a b c : PKey) (h1 : pkeyGeB a b = true) (h2 : pkeyGeB b c = true) :
    pkeyGeB a c = true := by
  unfold pkeyGeB pkeyLtB at *
  cases h : tripleLtB a.rank c.rank with
  | false => rfl
  | true =>
    exfalso
    rcases tripleLtB_split a.rank b.rank c.rank h with hx | hx
    · rw [hx] at h1; exact absurd h1 (by decide)
    · rw [hx] at h2; exact absurd h2 (by decide)

theorem pkeyLtB_of_geB_ne {a b : PKey} (hge : pkeyGeB a b = true) (hne : a ≠ b) :
    pkeyLtB b a = true := by
  unfold pkeyGeB pkeyLtB at *
  cases h : tripleLtB a.rank b.rank with
  | true => rw [h] at hge; exact absurd hge (by decide)
  | false => exact tripleLtB_connex (fun hc => hne (rank_inj hc)) h

/-! ## Step-machine lemmas (claim C1) -/

/-- Either an add fails (validation) and changes nothing, or it stores some
record at the current counter and increments it. -/
theorem add_expense_spec (st : St) (c a d ds t : String) :
    add_expense st c a d ds t = (st, false, none) ∨
    ∃ r : ExpRec,
      add_expense st c a d ds t =
        (⟨alistSet st.expenses st.expense_counter r, st.expense_counter + 1⟩,
         true, some st.expense_counter) := by
  unfold add_expense
  dsimp only
  split
  · left; rfl
  · split
    · left; rfl
    · split
      · left; rfl
      · right; exact ⟨_, rfl⟩

/-- Either a delete leaves the state alone with no save, or it erases a
present key and saves. -/
theorem delete_expense_spec (st : St) (idStr confirm : String) :
    (∃ res, (∀ k, res ≠ DelRes.deleted k) ∧
      delete_expense st idStr confirm = (st, false, res)) ∨
    (∃ k, k ∈ alistKeys st.expenses ∧
      delete_expense st idStr confirm =
        (⟨alistErase st.expenses k, st.expense_counter⟩, true, DelRes.deleted k)) := by
  unfold delete_expense
  dsimp only
  split
  · refine Or.inl ⟨_, ?_, rfl⟩
    intro k h
    cases h
  · split
    · refine Or.inl ⟨_, ?_, rfl⟩
      intro k h
      cases h
    · next i heq =>
      split
      · refine Or.inl ⟨_, ?_, rfl⟩
        intro k h
        cases h
      · next r hr =>
        split
        · right
          exact ⟨i, List.mem_map.mpr ⟨(i, r), mem_of_alistGet?_eq_some hr, rfl⟩, rfl⟩
        · refine Or.inl ⟨_, ?_, rfl⟩
          intro k h
          cases h

theorem step_counter_mono (st : St) (e : Ev) :
    st.expense_counter ≤ ((step st e).1).expense_counter := by
  cases e with
  | add c a d ds t =>
    show (add_expense st c a d ds t).1.expense_counter ≥ _
    rcases add_expense_spec st c a d ds t with h | ⟨r, h⟩ <;> rw [h] <;> simp <;> omega
  | del i c =>
    show (delete_expense st i c).1.expense_counter ≥ _
    rcases delete_expense_spec st i c with ⟨res, hres, h⟩ | ⟨k, hk, h⟩ <;> rw [h]
  | view => exact le_refl _
  | filter _ => exact le_refl _
  | totalCalc => exact le_refl _
  | summary _ => exact le_refl _
  | visualize _ => exact le_refl _
  | menuInvalid _ => exact le_refl _

theorem step_preserves_GoodSt {st : St} (e : Ev) (h : GoodSt st) : GoodSt (step st e).1 := by
  cases e with
  | add c a d ds t =>
    show GoodSt (add_expense st c a d ds t).1
    rcases add_expense_spec st c a d ds t with ha | ⟨r, ha⟩ <;> rw [ha]
    · exact h
    · intro k hk
      show k < st.expense_counter + 1
      rcases (alistKeys_set st.expenses st.expense_counter r k).mp hk with rfl | hk
      · omega
      · have := h k hk
        omega
  | del i c =>
    show GoodSt (delete_expense st i c).1
    rcases delete_expense_spec st i c with ⟨res, hres, hd⟩ | ⟨k, hk, hd⟩ <;> rw [hd]
    · exact h
    · intro k' hk'
      exact h k' (alistKeys_erase_subset st.expenses k k' hk')
  | view => exact h
  | filter _ => exact h
  | totalCalc => exact h
  | summary _ => exact h
  | visualize _ => exact h
  | menuInvalid _ => exact h

theorem stepAssigned_eq {st : St} {e : Ev} {i : Int} (h : stepAssigned st e = some i) :
    i = st.expense_counter ∧ ((step st e).1).expense_counter = st.expense_counter + 1 ∧
      (GoodSt st → i ∉ alistKeys st.expenses) := by
  cases e with
  | add c a d ds t =>
    show i = _ ∧ (add_expense st c a d ds t).1.expense_counter = _ ∧ _
    rcases add_expense_spec st c a d ds t with ha | ⟨r, ha⟩
    · rw [show stepAssigned st (Ev.add c a d ds t) = (add_expense st c a d ds t).2.2
        from rfl, ha] at h
      exact absurd h (by simp)
    · rw [show stepAssigned st (Ev.add c a d ds t) = (add_expense st c a d ds t).2.2
        from rfl, ha] at h
      have hi : i = st.expense_counter := by
        have := Option.some.injEq i st.expense_counter
        simp at h
        omega
      subst hi
      refine ⟨rfl, by rw [ha], ?_⟩
      intro hg hmem
      have := hg _ hmem
      omega
  | del a b => exact absurd h (by simp [stepAssigned])
  | view => exact absurd h (by simp [stepAssigned])
  | filter a => exact absurd h (by simp [stepAssigned])
  | totalCalc => exact absurd h (by simp [stepAssigned])
  | summary a => exact absurd h (by simp [stepAssigned])
  | visualize a => exact absurd h (by simp [stepAssigned])
  | menuInvalid a => exact absurd h (by simp [stepAssigned])

theorem stepDeleted_mem {st : St} {e : Ev} {i : Int} (h : stepDeleted st e = some i) :
    i ∈ alistKeys st.expenses := by
  cases e with
  | del a b =>
    rcases delete_expense_spec st a b with ⟨res, hres, hd⟩ | ⟨k, hk, hd⟩ <;>
      rw [show stepDeleted st (Ev.del a b) =
        (match (delete_expense st a b).2.2 with
         | .deleted k => some k
         | _ => none) from rfl, hd] at h
    · cases res with
      | deleted k => exact absurd rfl (hres k)
      | noExpenses => exact absurd h (by simp)
      | invalidId => exact absurd h (by simp)
      | notFound j => exact absurd h (by simp)
      | cancelled j => exact absurd h (by simp)
    · simp only at h
      have : k = i := by injection h
      rw [← this]
      exact hk
  | add c a d ds t => exact absurd h (by simp [stepDeleted])
  | view => exact absurd h (by simp [stepDeleted])
  | filter a => exact absurd h (by simp [stepDeleted])
  | totalCalc => exact absurd h (by simp [stepDeleted])
  | summary a => exact absurd h (by simp [stepDeleted])
  | visualize a => exact absurd h (by simp [stepDeleted])
  | menuInvalid a => exact absurd h (by simp [stepDeleted])

theorem run_counter_mono (st : St) (evs : List Ev) :
    st.expense_counter ≤ (run st evs).expense_counter := by
  induction evs generalizing st with
  | nil => exact le_refl _
  | cons e es ih =>
    exact le_trans (step_counter_mono st e) (ih (step st e).1)

theorem run_GoodSt {st : St} (evs : List Ev) (h : GoodSt st) : GoodSt (run st evs) := by
  induction evs generalizing st with
  | nil => exact h
  | cons e es ih => exact ih (step_preserves_GoodSt e h)

theorem assignedIds_lb (st : St) (evs : List Ev) :
    ∀ i ∈ assignedIds st evs, st.expense_counter ≤ i := by
  induction evs generalizing st with
  | nil => simp [assignedIds]
  | cons e es ih =>
    intro i hi
    unfold assignedIds at hi
    rcases List.mem_append.mp hi with hi | hi
    · cases ha : stepAssigned st e with
      | none => rw [ha] at hi; simp at hi
      | some j =>
        rw [ha] at hi
        simp only [Option.toList_some, List.mem_singleton] at hi
        subst hi
        exact le_of_eq (stepAssigned_eq ha).1.symm
    · exact le_trans (step_counter_mono st e) (ih (step st e).1 i hi)

theorem assignedIds_ub (st : St) (evs : List Ev) :
    ∀ i ∈ assignedIds st evs, i < (run st evs).expense_counter := by
  induction evs generalizing st with
  | nil => simp [assignedIds]
  | cons e es ih =>
    intro i hi
    unfold assignedIds at hi
    unfold run
    rcases List.mem_append.mp hi with hi | hi
    · cases ha : stepAssigned st e with
      | none => rw [ha] at hi; simp at hi
      | some j =>
        rw [ha] at hi
        simp only [Option.toList_some, List.mem_singleton] at hi
        subst hi
        obtain ⟨h1, h2, _⟩ := stepAssigned_eq ha
        have := run_counter_mono (step st e).1 es
        omega
    · exact ih (step st e).1 i hi

theorem assignedIds_sorted (st : St) (evs : List Ev) :
    (assignedIds st evs).Pairwise (· < ·) := by
  induction evs generalizing st with
  | nil => simp [assignedIds]
  | cons e es ih =>
    unfold assignedIds
    rw [List.pairwise_append]
    refine ⟨?_, ih (step st e).1, ?_⟩
    · cases ha : stepAssigned st e <;> simp
    · intro i hi j hj
      cases ha : stepAssigned st e with
      | none => rw [ha] at hi; simp at hi
      | some k =>
        rw [ha] at hi
        simp only [Option.toList_some, List.mem_singleton] at hi
        subst hi
        obtain ⟨h1, h2, _⟩ := stepAssigned_eq ha
        have := assignedIds_lb (step st e).1 es j hj
        omega

theorem deletedIds_ub {st : St} (evs : List Ev) (h : GoodSt st) :
    ∀ d ∈ deletedIds st evs, d < (run st evs).expense_counter := by
  induction evs generalizing st with
  | nil => simp [deletedIds]
  | cons e es ih =>
    intro d hd
    unfold deletedIds at hd
    unfold run
    rcases List.mem_append.mp hd with hd | hd
    · cases hdel : stepDeleted st e with
      | none => rw [hdel] at hd; simp at hd
      | some k =>
        rw [hdel] at hd
        simp only [Option.toList_some, List.mem_singleton] at hd
        subst hd
        have hmem := stepDeleted_mem hdel
        have h1 := h _ hmem
        have h2 := step_counter_mono st e
        have h3 := run_counter_mono (step st e).1 es
        omega
    · exact ih (step_preserves_GoodSt e h) d hd

/-! ## Aggregation lemmas (claims C5 and C7) -/

theorem sum_values_upsert (acc : List (String × ℚ)) (c : String) (a : ℚ) :
    ((alistUpsert acc c (· + a) 0).map (·.2)).sum = (acc.map (·.2)).sum + a := by
  induction acc with
  | nil => simp [alistUpsert]
  | cons p l ih =>
    unfold alistUpsert
    split
    · simp only [List.map_cons, List.sum_cons]
      ring
    · simp only [List.map_cons, List.sum_cons, ih]
      ring

theorem sum_values_catFold (l : List (Int × ExpRec)) (acc : List (String × ℚ)) :
    ((l.foldl (fun acc p => alistUpsert acc p.2.category (· + p.2.amount) 0) acc).map
      (·.2)).sum = (acc.map (·.2)).sum + (l.map (·.2.amount)).sum := by
  induction l generalizing acc with
  | nil => simp
  | cons p l ih =>
    simp only [List.foldl_cons, List.map_cons, List.sum_cons]
    rw [ih, sum_values_upsert]
    ring

/-- Records of `l` grouped under key `k`. -/
def members (g : Gran) (k : PKey) (l : List (Int × ExpRec)) : List ExpRec :=
  (l.filter (fun p => recKey? g p.2 = some k)).map (·.2)

/-- Folding a period's member records into an accumulator. -/
def foldPS (s : PSum) (ms : List ExpRec) : PSum := ms.foldl addRec s

def buildGo (g : Gran) (acc : List (PKey × PSum)) (l : List (Int × ExpRec)) :
    List (PKey × PSum) :=
  l.foldl (fun acc p =>
    match recKey? g p.2 with
    | some k => alistUpsert acc k (fun s => addRec s p.2) emptyPSum
    | none => acc) acc

theorem buildSummaries_eq_go (g : Gran) (l : List (Int × ExpRec)) :
    buildSummaries g l = buildGo g [] l := rfl

theorem buildGo_cons (g : Gran) (acc : List (PKey × PSum)) (p : Int × ExpRec)
    (l : List (Int × ExpRec)) :
    buildGo g acc (p :: l) =
      buildGo g
        (match recKey? g p.2 with
         | some k => alistUpsert acc k (fun s => addRec s p.2) emptyPSum
         | none => acc) l := by
  unfold buildGo
  rw [List.foldl_cons]

/-- Grouping correctness: the accumulator entry of a key is the fold of that
key's member records, in ledger order. -/
theorem buildGo_get? (g : Gran) (l : List (Int × ExpRec)) (acc : List (PKey × PSum))
    (k : PKey) :
    alistGet? (buildGo g acc l) k =
      match alistGet? acc k with
      | some s => some (foldPS s (members g k l))
      | none =>
        if members g k l = [] then none
        else some (foldPS emptyPSum (members g k l)) := by
  induction l generalizing acc with
  | nil =>
    show alistGet? acc k = _
    cases h : alistGet? acc k <;> simp [members, foldPS, h]
  | cons p l ih =>
    rw [buildGo_cons]
    cases hk : recKey? g p.2 with
    | none =>
      have hmem : members g k (p :: l) = members g k l := by
        unfold members
        rw [List.filter_cons, if_neg (by simp [hk])]
      rw [hmem]
      exact ih acc
    | some k' =>
      by_cases hkk : k' = k
      · subst hkk
        have hmem : members g k' (p :: l) = p.2 :: members g k' l := by
          unfold members
          rw [List.filter_cons, if_pos (by simp [hk])]
          rfl
        rw [hmem, ih _, alistGet?_upsert_self]
        cases hacc : alistGet? acc k' with
        | some s =>
          show some (foldPS (addRec s p.2) (members g k' l)) =
            some (foldPS s (p.2 :: members g k' l))
          rfl
        | none =>
          show some (foldPS (addRec emptyPSum p.2) (members g k' l)) = _
          rw [show (if p.2 :: members g k' l = [] then none
            else some (foldPS emptyPSum (p.2 :: members g k' l))) =
              some (foldPS emptyPSum (p.2 :: members g k' l)) from if_neg (by simp)]
          rfl
      · have hmem : members g k (p :: l) = members g k l := by
          unfold members
          rw [List.filter_cons, if_neg (by simp [hk, hkk])]
        rw [hmem, ih _, alistGet?_upsert_other _ (fun he => hkk he.symm)]

theorem buildGo_keys_nodup (g : Gran) (l : List (Int × ExpRec))
    (acc : List (PKey × PSum)) (h : (alistKeys acc).Nodup) :
    (alistKeys (buildGo g acc l)).Nodup := by
  induction l generalizing acc with
  | nil => exact h
  | cons p l ih =>
    rw [buildGo_cons]
    cases hk : recKey? g p.2 with
    | none => exact ih acc h
    | some k' => exact ih _ (keys_nodup_upsert _ _ h)

theorem foldPS_cat_mem (ms : List ExpRec) (s : PSum) (c : String) :
    c ∈ alistKeys (foldPS s ms).categories ↔
      c ∈ alistKeys s.categories ∨ c ∈ ms.map (·.category) := by
  induction ms generalizing s with
  | nil => simp [foldPS]
  | cons r ms ih =>
    show c ∈ alistKeys (foldPS (addRec s r) ms).categories ↔ _
    rw [ih]
    unfold addRec
    dsimp only
    rw [alistKeys_upsert s.categories r.category _ 0 c]
    simp only [List.map_cons, List.mem_cons]
    tauto

theorem foldPS_cat_nodup (ms : List ExpRec) (s : PSum)
    (h : (alistKeys s.categories).Nodup) :
    (alistKeys (foldPS s ms).categories).Nodup := by
  induction ms generalizing s with
  | nil => exact h
  | cons r ms ih =>
    show (alistKeys (foldPS (addRec s r) ms).categories).Nodup
    exact ih _ (keys_nodup_upsert _ _ h)

theorem nodup_mem_length {l₁ l₂ : List String} (h1 : l₁.Nodup) (h2 : l₂.Nodup)
    (h : ∀ x, x ∈ l₁ ↔ x ∈ l₂) : l₁.length = l₂.length := by
  rw [← List.toFinset_card_of_nodup h1, ← List.toFinset_card_of_nodup h2]
  congr 1
  ext x
  simp only [List.mem_toFinset]
  exact h x

/-- The per-period category map has exactly the distinct member categories. -/
theorem psum_cat_length {g : Gran} {k : PKey} {l : List (Int × ExpRec)} {s : PSum}
    (h : alistGet? (buildSummaries g l) k = some s) :
    s.categories.length = ((members g k l).map (·.category)).dedup.length := by
  rw [buildSummaries_eq_go, buildGo_get?] at h
  have hacc : alistGet? ([] : List (PKey × PSum)) k = none := rfl
  rw [hacc] at h
  dsimp only at h
  split at h
  · exact absurd h (by simp)
  · have hs : foldPS emptyPSum (members g k l) = s := by injection h
    subst hs
    have hnodup : (alistKeys (foldPS emptyPSum (members g k l)).categories).Nodup :=
      foldPS_cat_nodup _ _ (by simp [emptyPSum, alistKeys])
    have hmem : ∀ c, c ∈ alistKeys (foldPS emptyPSum (members g k l)).categories ↔
        c ∈ (members g k l).map (·.category) := by
      intro c
      rw [foldPS_cat_mem]
      simp [emptyPSum, alistKeys]
    have hlen := nodup_mem_length hnodup (List.nodup_dedup _)
      (fun x => by rw [hmem x, List.mem_dedup])
    calc (foldPS emptyPSum (members g k l)).categories.length
        = (alistKeys (foldPS emptyPSum (members g k l)).categories).length :=
          (List.length_map _ _).symm
      _ = ((members g k l).map (·.category)).dedup.length := hlen

/-! ## Chronology of summary keys (claim C7) -/

theorem recKey?_eval (g : Gran) (r : ExpRec) {t : Nat × Nat × Nat}
    (hp : parseYMD? r.date.data = some t) :
    recKey? g r = some (match g with
      | .week => PKey.week (weekKeyOf t.1 t.2.1 t.2.2).1 (weekKeyOf t.1 t.2.1 t.2.2).2
      | .month => PKey.month t.1 t.2.1
      | .year => PKey.year t.1) := by
  unfold recKey?
  rw [hp]
  rfl

/-- Of two records in different periods, the chronologically later one gets
the strictly larger key, for every granularity. -/
theorem recKey_chrono {g : Gran} {r1 r2 : ExpRec} {t1 t2 : Nat × Nat × Nat}
    (hp1 : parseYMD? r1.date.data = some t1) (hp2 : parseYMD? r2.date.data = some t2)
    (ht : toordinal t1.1 t1.2.1 t1.2.2 < toordinal t2.1 t2.2.1 t2.2.2)
    {k1 k2 : PKey} (hk1 : recKey? g r1 = some k1) (hk2 : recKey? g r2 = some k2)
    (hne : k1 ≠ k2) : pkeyLtB k1 k2 = true := by
  obtain ⟨y1, m1, d1⟩ := t1
  obtain ⟨y2, m2, d2⟩ := t2
  dsimp only at ht
  have hv1 := parseYMD?_valid hp1
  have hv2 := parseYMD?_valid hp2
  rw [recKey?_eval g r1 hp1] at hk1
  rw [recKey?_eval g r2 hp2] at hk2
  cases g with
  | year =>
    have e1 : k1 = PKey.year y1 := by injection hk1 with h; exact h.symm
    have e2 : k2 = PKey.year y2 := by injection hk2 with h; exact h.symm
    subst e1; subst e2
    have hy : y1 ≠ y2 := fun he => hne (by rw [he])
    have hlt : y1 < y2 := by
      rcases Nat.lt_trichotomy y1 y2 with h | h | h
      · exact h
      · exact absurd h hy
      · exact absurd ht (by
          have := toordinal_lt_of_lex hv2 hv1 (Or.inl h)
          omega)
    unfold pkeyLtB
    rw [tripleLtB_iff]
    dsimp only [PKey.rank]
    right
    exact ⟨rfl, Or.inl hlt⟩
  | month =>
    have e1 : k1 = PKey.month y1 m1 := by injection hk1 with h; exact h.symm
    have e2 : k2 = PKey.month y2 m2 := by injection hk2 with h; exact h.symm
    subst e1; subst e2
    have hym : ¬(y1 = y2 ∧ m1 = m2) := by
      intro ⟨ha, hb⟩
      exact hne (by rw [ha, hb])
    have hlt : y1 < y2 ∨ (y1 = y2 ∧ m1 < m2) := by
      rcases Nat.lt_trichotomy y1 y2 with h | h | h
      · exact Or.inl h
      · rcases Nat.lt_trichotomy m1 m2 with h2 | h2 | h2
        · exact Or.inr ⟨h, h2⟩
        · exact absurd ⟨h, h2⟩ hym
        · exact absurd ht (by
            have := toordinal_lt_of_lex hv2 hv1 (Or.inr (Or.inl ⟨h.symm, h2⟩))
            omega)
      · exact absurd ht (by
          have := toordinal_lt_of_lex hv2 hv1 (Or.inl h)
          omega)
    unfold pkeyLtB
    rw [tripleLtB_iff]
    dsimp only [PKey.rank]
    right
    rcases hlt with h | ⟨h, h2⟩
    · exact ⟨rfl, Or.inl h⟩
    · exact ⟨rfl, Or.inr ⟨h, h2⟩⟩
  | week =>
    have e1 : k1 = PKey.week (weekKeyOf y1 m1 d1).1 (weekKeyOf y1 m1 d1).2 := by
      injection hk1 with h; exact h.symm
    have e2 : k2 = PKey.week (weekKeyOf y2 m2 d2).1 (weekKeyOf y2 m2 d2).2 := by
      injection hk2 with h; exact h.symm
    subst e1; subst e2
    have hwne : weekKeyOf y1 m1 d1 ≠ weekKeyOf y2 m2 d2 := by
      intro he
      exact hne (by rw [Prod.ext_iff] at he; rw [he.1, he.2])
    have := weekKey_lt_of_lt hv1 hv2 ht hwne
    unfold pkeyLtB
    rw [tripleLtB_iff]
    dsimp only [PKey.rank]
    right
    rcases this with h | ⟨h, h2⟩
    · exact ⟨rfl, Or.inl h⟩
    · exact ⟨rfl, Or.inr ⟨h, h2⟩⟩

/-! ## Display-order lemmas (claim C7) -/

theorem filterMap_render_keys (sums : List (PKey × PSum)) (ks : List PKey)
    (h : ∀ k ∈ ks, k ∈ alistKeys sums) :
    (ks.filterMap (fun k => (alistGet? sums k).map (renderSummary k))).map (·.key) = ks := by
  induction ks with
  | nil => rfl
  | cons k ks ih =>
    have hs := alistGet?_isSome_of_mem (h k (List.mem_cons_self k ks))
    cases hg : alistGet? sums k with
    | none => rw [hg] at hs; exact absurd hs (by simp)
    | some s =>
      rw [List.filterMap_cons_some (by rw [hg]; rfl)]
      rw [List.map_cons, ih (fun k' hk' => h k' (List.mem_cons.mpr (Or.inr hk')))]
      rfl

theorem disp_map_key (st : St) (g : Gran) :
    (generate_expense_summary st g).map (·.key) =
      sortB pkeyGeB ((buildSummaries g st.expenses).map (·.1)) := by
  unfold generate_expense_summary
  apply filterMap_render_keys
  intro k hk
  exact (mem_sortB pkeyGeB k _).mp hk

theorem mem_disp {st : St} {g : Gran} {e : DispEntry}
    (he : e ∈ generate_expense_summary st g) :
    ∃ k s, alistGet? (buildSummaries g st.expenses) k = some s ∧ e = renderSummary k s := by
  unfold generate_expense_summary at he
  rw [List.mem_filterMap] at he
  obtain ⟨k, hk, hmap⟩ := he
  cases hg : alistGet? (buildSummaries g st.expenses) k with
  | none => rw [hg] at hmap; exact absurd hmap (by simp)
  | some s =>
    rw [hg] at hmap
    refine ⟨k, s, hg, ?_⟩
    have : renderSummary k s = e := by injection hmap
    exact this.symm

theorem disp_keys_pairwise (st : St) (g : Gran) :
    ((generate_expense_summary st g).map (·.key)).Pairwise
      (fun a b => pkeyLtB b a = true) := by
  rw [disp_map_key]
  have hge := pairwise_sortB pkeyGeB_total pkeyGeB_trans
    ((buildSummaries g st.expenses).map (·.1))
  have hkeys : ((buildSummaries g st.expenses).map (·.1)).Nodup :=
    buildGo_keys_nodup g st.expenses [] (by simp [alistKeys])
  have hnodup : (sortB pkeyGeB ((buildSummaries g st.expenses).map (·.1))).Nodup :=
    (perm_sortB pkeyGeB _).nodup_iff.mpr hkeys
  have hand := List.Pairwise.and hge hnodup
  exact hand.imp (fun hab => pkeyLtB_of_geB_ne hab.1 hab.2)

/-! ## Concrete fixtures for witnesses and counterexamples -/

def recFood (amt : ℚ) (date : String) : ExpRec := ⟨"Food", amt, date, ""⟩

/-- Ledger of the spec's monthly-summary example (one category). -/
def stC3 : St :=
  ⟨[(1, recFood 10 "2024-01-05"), (2, recFood 20 "2024-01-20"),
    (3, recFood 5 "2024-02-01")], 4⟩

def recC1 : ExpRec := ⟨"Food", 10, "2024-01-05", ""⟩

/-- A structurally well-formed persistence file whose counter (1) does not
exceed the stored ID 1. -/
def badFile : JVal :=
  .jobj [("expenses", .jobj [("1", recToJVal recC1)]), ("counter", .jnum 1)]

def stC4 : St := ⟨[(1, recFood 10 "2024-01-05"), (2, recFood 20 "2024-01-20")], 3⟩

def stC5 : St := ⟨[(1, recFood 10 "2024-01-05"), (2, ⟨"Bus", 4, "2024-01-06", ""⟩)], 3⟩

def stC6 : St := ⟨[(1, recFood 10 "2024-01-05"), (2, recFood 20 "2024-01-20")], 3⟩

/-- Ledger whose sole category is the all-digits string "1". -/
def stC10 : St := ⟨[(1, ⟨"1", 5, "2024-01-05", ""⟩)], 2⟩

def stC10b : St := ⟨[(1, ⟨"Food", 5, "2024-01-05", ""⟩), (2, ⟨"Bus", 4, "2024-01-06", ""⟩)], 3⟩

/-- Two-week, two-month ledger for the summary witness. -/
def stC7 : St :=
  ⟨[(1, recFood 10 "2024-01-05"), (2, ⟨"Bus", 20, "2024-01-20", ""⟩),
    (3, recFood 5 "2024-02-01")], 4⟩

/-! ## Claim C2: corrupt persistence files -/

/-- C2 counterexample: the claim says every structurally corrupt file
content — including valid JSON of the wrong shape — loads as an empty
ledger with counter 1 without crashing.  A top-level JSON array makes
`data.get` raise an uncaught AttributeError, and a non-integer expense key
makes `int(k)` raise an uncaught ValueError, so `load_expenses` crashes
instead of recovering. -/
theorem c2_counterexample :
    load_expenses (.json (.jarr [])) = .crash .attributeError ∧
    load_expenses
        (.json (.jobj [("expenses", .jobj [("x", .jnull)]), ("counter", .jnum 1)])) =
      .crash .valueError ∧
    LoadResult.crash .attributeError ≠ .recovered := by
  refine ⟨rfl, rfl, ?_⟩
  intro h
  cases h

/-- C2 (amended): `load_expenses` recovers to the empty ledger with counter
1 exactly on JSON-decode failures and I/O errors; valid JSON whose top
level is not an object instead raises an uncaught AttributeError. -/
theorem c2_amended :
    load_expenses FileContent.badJSON = .recovered ∧
    load_expenses FileContent.ioError = .recovered ∧
    (∀ v : JVal, (∀ fields, v ≠ .jobj fields) →
      load_expenses (.json v) = .crash .attributeError) := by
  refine ⟨rfl, rfl, ?_⟩
  intro v hv
  cases v with
  | jobj fields => exact absurd rfl (hv fields)
  | jnull => rfl
  | jbool b => rfl
  | jnum q => rfl
  | jstr s => rfl
  | jarr l => rfl

/-- C2 witness: the amended theorem applied to the top-level array. -/
theorem c2_witness :
    load_expenses (.json (.jarr [])) = .crash .attributeError :=
  c2_amended.2.2 (.jarr []) (fun fields h => by cases h)

/-! ## Claim C3: the concrete monthly summary -/

/-- C3 counterexample: on the example ledger the monthly summary displays
February's period before January's (`sorted(keys, reverse=True)` is
most-recent-first), so the claim's "January listed before February" is
false. -/
theorem c3_counterexample :
    (generate_expense_summary stC3 Gran.month).map (·.key) =
      [PKey.month 2024 2, PKey.month 2024 1] ∧
    [PKey.month 2024 2, PKey.month 2024 1] ≠ [PKey.month 2024 1, PKey.month 2024 2] := by
  constructor
  · decide
  · decide

/-- C3 (amended): the monthly summary of the example ledger has exactly the
two claimed periods with the claimed totals, counts and averages — January
$30 over 2 records averaging $15, February $5 over 1 record — but displayed
most-recent-first: February before January. -/
theorem c3_amended :
    generate_expense_summary stC3 Gran.month =
      [⟨PKey.month 2024 2, 5, 1, 5, none⟩, ⟨PKey.month 2024 1, 30, 2, 15, none⟩] := by
  have hb : generate_expense_summary stC3 Gran.month =
      [renderSummary (PKey.month 2024 2)
        (foldPS emptyPSum [recFood 5 "2024-02-01"]),
       renderSummary (PKey.month 2024 1)
        (foldPS emptyPSum [recFood 10 "2024-01-05", recFood 20 "2024-01-20"])] := rfl
  rw [hb]
  norm_num [renderSummary, foldPS, addRec, emptyPSum, alistUpsert, recFood]

/-! ## Claim C4: save/load round trip -/

theorem mapM_decode (l : List (Int × ExpRec)) :
    (l.map (fun p => (p.1, recToJVal p.2))).mapM
        (fun p => (recOfJVal? p.2).map (fun r => (p.1, r))) = some l := by
  induction l with
  | nil => rfl
  | cons p l ih =>
    simp only [List.map_cons, List.mapM_cons, recOfJVal?_recToJVal, ih]
    rfl

/-- C4: saving any collection (with the dict's unique keys) and loading the
result reproduces the same entries in order — every ID mapped to an equal
record — and the same counter. -/
theorem c4_roundtrip (st : St) (h : (st.expenses.map (·.1)).Nodup) :
    load_expenses (.json (save_expenses st)) =
      .ok (st.expenses.map (fun p => (p.1, recToJVal p.2)))
        (.jnum (st.expense_counter : ℚ)) ∧
    sessionOf (load_expenses (.json (save_expenses st))) = some st := by
  have hload : load_expenses (.json (save_expenses st)) =
      match intKeys (st.expenses.map (fun p => (intToString p.1, recToJVal p.2))) with
      | .error e => .crash e
      | .ok pairs =>
        .ok (pairs.foldl (fun acc p => alistSet acc p.1 p.2) [])
          (.jnum (st.expense_counter : ℚ)) := rfl
  rw [intKeys_map] at hload
  dsimp only at hload
  have hfold : (st.expenses.map (fun p => (p.1, recToJVal p.2))).foldl
      (fun acc p => alistSet acc p.1 p.2) [] =
      st.expenses.map (fun p => (p.1, recToJVal p.2)) := by
    have hkeys : ((st.expenses.map (fun p => (p.1, recToJVal p.2))).map (·.1)).Nodup := by
      rw [List.map_map]
      exact h
    have := foldl_alistSet_of_nodup (st.expenses.map (fun p => (p.1, recToJVal p.2))) []
      (fun p _ hmem => by simp [alistKeys] at hmem) hkeys
    simpa using this
  rw [hfold] at hload
  refine ⟨hload, ?_⟩
  rw [hload]
  show sessionOf (.ok _ (.jnum (st.expense_counter : ℚ))) = some st
  unfold sessionOf
  dsimp only
  rw [if_pos (Rat.den_intCast st.expense_counter), mapM_decode]
  show some ⟨st.expenses, ((st.expense_counter : ℚ)).num⟩ = some st
  rw [Rat.num_intCast]

/-- C4 witness at a concrete two-entry ledger. -/
theorem c4_witness :
    (stC4.expenses.map (·.1)).Nodup ∧
    (load_expenses (.json (save_expenses stC4)) =
      .ok (stC4.expenses.map (fun p => (p.1, recToJVal p.2)))
        (.jnum (stC4.expense_counter : ℚ)) ∧
    sessionOf (load_expenses (.json (save_expenses stC4))) = some stC4) :=
  ⟨by decide, c4_roundtrip stC4 (by decide)⟩

/-! ## Claim C5: totals -/

/-- C5: on a non-empty ledger the grand total is the sum of all stored
amounts, and the per-category totals sum exactly to the grand total (the
model's rationals make the float-tolerance exact). -/
theorem c5_totals (st : St) (h : st.expenses ≠ []) :
    calculate_total_expenses st =
      some ((st.expenses.map (·.2.amount)).sum,
        st.expenses.foldl (fun acc p => alistUpsert acc p.2.category (· + p.2.amount) 0) []) ∧
    ((st.expenses.foldl (fun acc p => alistUpsert acc p.2.category (· + p.2.amount) 0)
        []).map (·.2)).sum = (st.expenses.map (·.2.amount)).sum := by
  constructor
  · unfold calculate_total_expenses
    rw [if_neg (not_isEmpty_of_ne_nil h)]
  · have := sum_values_catFold st.expenses []
    simpa using this

/-- C5 witness at a concrete two-category ledger. -/
theorem c5_witness :
    stC5.expenses ≠ [] ∧
    (calculate_total_expenses stC5 =
      some ((stC5.expenses.map (·.2.amount)).sum,
        stC5.expenses.foldl (fun acc p => alistUpsert acc p.2.category (· + p.2.amount) 0) []) ∧
    ((stC5.expenses.foldl (fun acc p => alistUpsert acc p.2.category (· + p.2.amount) 0)
        []).map (·.2)).sum = (stC5.expenses.map (·.2.amount)).sum) :=
  ⟨by decide, c5_totals stC5 (by decide)⟩

/-! ## Claim C9: read-only reporting is pure -/

/-- C9: the view, filter, total and summary menu actions leave the expense
collection and the counter unchanged and trigger no save; their display
values are pure functions of the state (`view_all_expenses`,
`filter_expenses_by_category`, `calculate_total_expenses`,
`generate_expense_summary`). -/
theorem c9_readonly_frame (st : St) (choice sumChoice : String) :
    step st Ev.view = (st, false) ∧
    step st (Ev.filter choice) = (st, false) ∧
    step st Ev.totalCalc = (st, false) ∧
    step st (Ev.summary sumChoice) = (st, false) :=
  ⟨rfl, rfl, rfl, rfl⟩

/-! ## Claim C8: validate_date -/

/-- C8 counterexample: `strptime('%Y-%m-%d')` accepts a month or day
written with a single digit, so `validate_date "2024-1-5"` is true although
the claim's strict `YYYY-MM-DD` (two-digit zero-padded) format excludes
that string. -/
theorem c8_counterexample :
    validate_date "2024-1-5" = true ∧ ¬ strictDateSpec "2024-1-5" := by
  constructor
  · decide
  · rintro ⟨y, m, d, _, _, _, _, _, _, hdata⟩
    have hlen := congrArg List.length hdata
    rw [show ("2024-1-5" : String).data.length = 8 from rfl] at hlen
    unfold strictDateRender at hlen
    simp only [List.length_append, List.length_cons, padDigits_length] at hlen
    omega

/-- C8 (amended): `validate_date` is true exactly on the lenient strptime
format — four-digit year, one-or-two-digit month and day (zero padding
optional) forming an existing calendar date — and in particular it still
rejects "2024-13-01". -/
theorem c8_amended :
    (∀ s, validate_date s = true ↔ lenientDateSpec s) ∧
    validate_date "2024-13-01" = false :=
  ⟨validate_date_iff_lenient, by decide⟩

/-! ## Claim C10: digit input in the category filter -/

/-- Category reported by a filter outcome, when one was selected. -/
def selectedCategory : FilterRes → Option String
  | .noneFound c => some c
  | .results c _ _ => some c
  | _ => none

/-- C10 counterexample: with sole stored category "1", typing the name "1"
does select category "1" — the numeric interpretation happens to index that
category's own position — contradicting "can never be selected by typing
its name". -/
theorem c10_counterexample :
    selectedCategory (filter_expenses_by_category stC10 "1") = some "1" := by
  decide

/-- C10 (amended): an all-digits input is always interpreted as a 1-based
index into the sorted category list — in range it selects the category at
that position (never a name match), out of range it is an invalid-number
error.  Hence an all-digits category name selects itself only when its
numeric value coincides with its own 1-based position. -/
theorem c10_digit_is_index (st : St) (choice : String)
    (h1 : pyIsdigit (pyStrip choice) = true) (h2 : st.expenses ≠ []) :
    (∀ hn : 1 ≤ digVal (pyStrip choice).data ∧
        digVal (pyStrip choice).data ≤ (sortedCategories st).length,
      selectedCategory (filter_expenses_by_category st choice) =
        (sortedCategories st)[digVal (pyStrip choice).data - 1]?) ∧
    (¬(1 ≤ digVal (pyStrip choice).data ∧
        digVal (pyStrip choice).data ≤ (sortedCategories st).length) →
      filter_expenses_by_category st choice = .invalidNumber) := by
  unfold filter_expenses_by_category
  rw [if_neg (not_isEmpty_of_ne_nil h2)]
  dsimp only
  rw [if_pos h1]
  constructor
  · intro hn
    rw [if_pos hn]
    have hlt : digVal (pyStrip choice).data - 1 < (sortedCategories st).length := by
      omega
    rw [List.getElem?_eq_getElem hlt]
    dsimp only
    split
    · rfl
    · rfl
  · intro hn
    rw [if_neg hn]

/-- C10 witness: ledger with categories Bus and Food; typing "2" selects
the second sorted category. -/
theorem c10_witness :
    pyIsdigit (pyStrip "2") = true ∧ stC10b.expenses ≠ [] ∧
    selectedCategory (filter_expenses_by_category stC10b "2") =
      (sortedCategories stC10b)[digVal (pyStrip "2").data - 1]? :=
  ⟨by decide, by decide,
    (c10_digit_is_index stC10b "2" (by decide) (by decide)).1 (by decide)⟩

/-! ## Claim C6: delete semantics -/

/-- C6: deleting an ID not present leaves the ledger and counter unchanged
with no save, reporting not-found (or the no-expenses message on an empty
ledger); deleting a present ID requires confirmation `yes`/`y` (after
strip+lower) — confirmed, the record is erased (it no longer appears in the
view) and a save runs; any other confirmation input changes nothing. -/
theorem c6_delete (st : St) (idStr confirm : String) (i : Int)
    (hid : pyInt? (pyStrip idStr) = some i) :
    (alistGet? st.expenses i = none →
      delete_expense st idStr confirm =
        (st, false, if st.expenses.isEmpty then DelRes.noExpenses else DelRes.notFound i)) ∧
    (∀ r, alistGet? st.expenses i = some r →
      ((pyLower (pyStrip confirm) = "yes" ∨ pyLower (pyStrip confirm) = "y") →
        delete_expense st idStr confirm =
          (⟨alistErase st.expenses i, st.expense_counter⟩, true, DelRes.deleted i) ∧
        alistGet? (alistErase st.expenses i) i = none ∧
        ∀ rows, view_all_expenses ⟨alistErase st.expenses i, st.expense_counter⟩ = some rows →
          i ∉ rows.map (·.1)) ∧
      (¬(pyLower (pyStrip confirm) = "yes" ∨ pyLower (pyStrip confirm) = "y") →
        delete_expense st idStr confirm = (st, false, DelRes.cancelled i))) := by
  by_cases hemp : st.expenses.isEmpty = true
  · have hnil := nil_of_isEmpty hemp
    constructor
    · intro _
      unfold delete_expense
      rw [if_pos hemp, if_pos hemp]
    · intro r hget
      rw [hnil] at hget
      exact absurd hget (by simp [alistGet?])
  · constructor
    · intro hget
      unfold delete_expense
      rw [if_neg hemp, hid]
      dsimp only
      rw [hget]
      dsimp only
      rw [if_neg hemp]
    · intro r hget
      constructor
      · intro hconf
        unfold delete_expense
        rw [if_neg hemp, hid]
        dsimp only
        rw [hget]
        dsimp only
        rw [if_pos hconf]
        refine ⟨rfl, alistGet?_erase st.expenses i, ?_⟩
        intro rows hrows hmem
        unfold view_all_expenses at hrows
        split at hrows
        · exact absurd hrows (by simp)
        · have hr : sortB dateGeB (alistErase st.expenses i) = rows := by
            injection hrows
          obtain ⟨p, hp, hfst⟩ := List.mem_map.mp hmem
          rw [← hr] at hp
          have hpe : p ∈ alistErase st.expenses i := (mem_sortB _ _ _).mp hp
          have hik : i ∈ alistKeys (alistErase st.expenses i) :=
            List.mem_map.mpr ⟨p, hpe, hfst⟩
          have := alistGet?_isSome_of_mem hik
          rw [alistGet?_erase] at this
          exact absurd this (by simp)
      · intro hconf
        unfold delete_expense
        rw [if_neg hemp, hid]
        dsimp only
        rw [hget]
        dsimp only
        rw [if_neg hconf]

/-- C6 witness: confirmed deletion of present ID 1. -/
theorem c6_witness :
    delete_expense stC6 "1" "yes" =
      (⟨alistErase stC6.expenses 1, stC6.expense_counter⟩, true, DelRes.deleted 1) :=
  ((((c6_delete stC6 "1" "yes" 1 (by decide)).2 (recFood 10 "2024-01-05")
    (by decide)).1) (by decide)).1

/-! ## Claim C1: ID uniqueness and monotonicity -/

/-- C1 counterexample: the claim extends to a load from any well-formed
persistence file.  `badFile` is structurally well formed (object with an
expenses map and an integer counter) but its counter 1 does not exceed the
stored ID 1; after loading it, a successful add assigns ID 1, which is
already present in the collection (the record is overwritten). -/
theorem c1_counterexample :
    sessionOf (load_expenses (.json badFile)) = some ⟨[(1, recC1)], 1⟩ ∧
    stepAssigned ⟨[(1, recC1)], 1⟩ (Ev.add "Food" "10" "2024-01-05" "" "2024-01-05") =
      some 1 ∧
    (1 : Int) ∈ alistKeys (⟨[(1, recC1)], 1⟩ : St).expenses := by
  refine ⟨?_, ?_, ?_⟩ <;> decide

/-- C1 (amended): from any session start state whose counter strictly
exceeds every stored ID — the fresh state, and any state loaded from a file
written by `save_expenses` (`c4_roundtrip`) — the IDs assigned by
successful adds strictly increase, each is absent from the collection at
assignment time and exceeds every previously assigned ID, a deleted ID is
never assigned again, and the counter never decreases and stays strictly
above every ID handed out. -/
theorem c1_session_ids (st0 : St) (evs : List Ev) (h : GoodSt st0) :
    (assignedIds st0 evs).Pairwise (· < ·) ∧
    (∀ pre e suf, evs = pre ++ e :: suf →
      ∀ i, stepAssigned (run st0 pre) e = some i →
        i ∉ alistKeys (run st0 pre).expenses ∧
        (∀ j ∈ assignedIds st0 pre, j < i) ∧
        (∀ d ∈ deletedIds st0 pre, d ≠ i)) ∧
    st0.expense_counter ≤ (run st0 evs).expense_counter ∧
    (∀ i ∈ assignedIds st0 evs, i < (run st0 evs).expense_counter) := by
  refine ⟨assignedIds_sorted st0 evs, ?_, run_counter_mono st0 evs, assignedIds_ub st0 evs⟩
  intro pre e suf hsplit i hassign
  have hg : GoodSt (run st0 pre) := run_GoodSt pre h
  obtain ⟨hi, hc, hnotmem⟩ := stepAssigned_eq hassign
  refine ⟨hnotmem hg, ?_, ?_⟩
  · intro j hj
    have := assignedIds_ub st0 pre j hj
    omega
  · intro d hd
    have := deletedIds_ub pre h d hd
    omega

def stW1 : St := ⟨[], 1⟩

def evsW : List Ev :=
  [.add "Food" "10" "2024-01-05" "" "2024-01-05",
   .del "1" "yes",
   .add "Bus" "4" "2024-01-06" "" "2024-01-06"]

/-- C1 witness: a fresh session running add, delete, add. -/
theorem c1_witness :
    GoodSt stW1 ∧
    ((assignedIds stW1 evsW).Pairwise (· < ·) ∧
    (∀ pre e suf, evsW = pre ++ e :: suf →
      ∀ i, stepAssigned (run stW1 pre) e = some i →
        i ∉ alistKeys (run stW1 pre).expenses ∧
        (∀ j ∈ assignedIds stW1 pre, j < i) ∧
        (∀ d ∈ deletedIds stW1 pre, d ≠ i)) ∧
    stW1.expense_counter ≤ (run stW1 evsW).expense_counter ∧
    (∀ i ∈ assignedIds stW1 evsW, i < (run stW1 evsW).expense_counter)) :=
  have hg : GoodSt stW1 := by
    intro k hk
    exact absurd hk (by simp [stW1, alistKeys])
  ⟨hg, c1_session_ids stW1 evsW hg⟩

/-! ## Claim C7: periodic summary presentation -/

/-- C7: for every ledger whose stored dates parse and every granularity,
the displayed periods are strictly descending in key order and the keys are
chronologically faithful (so the display is most-recent-first); each
period's average is its total divided by its count; and the top-categories
breakdown is present exactly when the period has more than one distinct
category. -/
theorem c7_summary_presentation (st : St) (g : Gran) (hne : st.expenses ≠ [])
    (hdates : ∀ p ∈ st.expenses, (parseYMD? p.2.date.data).isSome = true) :
    ((generate_expense_summary st g).map (·.key)).Pairwise
      (fun a b => pkeyLtB b a = true) ∧
    (∀ p1 ∈ st.expenses, ∀ p2 ∈ st.expenses, ∀ t1 t2 k1 k2,
      parseYMD? p1.2.date.data = some t1 → parseYMD? p2.2.date.data = some t2 →
      toordinal t1.1 t1.2.1 t1.2.2 < toordinal t2.1 t2.2.1 t2.2.2 →
      recKey? g p1.2 = some k1 → recKey? g p2.2 = some k2 → k1 ≠ k2 →
      pkeyLtB k1 k2 = true) ∧
    (∀ e ∈ generate_expense_summary st g, e.average = e.total / (e.count : ℚ)) ∧
    (∀ e ∈ generate_expense_summary st g,
      (e.topCategories.isSome = true ↔
        1 < ((members g e.key st.expenses).map (·.category)).dedup.length)) := by
  refine ⟨disp_keys_pairwise st g, ?_, ?_, ?_⟩
  · intro p1 _ p2 _ t1 t2 k1 k2 hp1 hp2 ht hk1 hk2 hnek
    exact recKey_chrono hp1 hp2 ht hk1 hk2 hnek
  · intro e he
    obtain ⟨k, s, hget, rfl⟩ := mem_disp he
    rfl
  · intro e he
    obtain ⟨k, s, hget, rfl⟩ := mem_disp he
    have hlen := psum_cat_length hget
    show (if 1 < s.categories.length then
      some ((sortB amtGeB s.categories).take 3) else none).isSome = true ↔ _
    by_cases hl : 1 < s.categories.length
    · rw [if_pos hl]
      constructor
      · intro _
        rw [show (renderSummary k s).key = k from rfl, ← hlen]
        exact hl
      · intro _
        rfl
    · rw [if_neg hl]
      constructor
      · intro hc
        exact absurd hc (by simp)
      · intro hc
        rw [show (renderSummary k s).key = k from rfl, ← hlen] at hc
        exact absurd hc hl

/-- C7 witness: the weekly summary over a three-record, two-category
ledger. -/
theorem c7_witness :
    stC7.expenses ≠ [] ∧
    (((generate_expense_summary stC7 Gran.week).map (·.key)).Pairwise
      (fun a b => pkeyLtB b a = true) ∧
    (∀ p1 ∈ stC7.expenses, ∀ p2 ∈ stC7.expenses, ∀ t1 t2 k1 k2,
      parseYMD? p1.2.date.data = some t1 → parseYMD? p2.2.date.data = some t2 →
      toordinal t1.1 t1.2.1 t1.2.2 < toordinal t2.1 t2.2.1 t2.2.2 →
      recKey? Gran.week p1.2 = some k1 → recKey? Gran.week p2.2 = some k2 → k1 ≠ k2 →
      pkeyLtB k1 k2 = true) ∧
    (∀ e ∈ generate_expense_summary stC7 Gran.week,
      e.average = e.total / (e.count : ℚ)) ∧
    (∀ e ∈ generate_expense_summary stC7 Gran.week,
      (e.topCategories.isSome = true ↔
        1 < ((members Gran.week e.key stC7.expenses).map (·.category)).dedup.length))) :=
  ⟨by decide, c7_summary_presentation stC7 Gran.week (by decide) (by decide)⟩

end Expense
